import Mathlib

/-!
Verification development for the PointQuadTree repository
(`point.py`, `axis_aligned_bounding_box.py`, `point_quad_tree.py`).

Modelling choices (shallow embedding):

* Python coordinates are floating point; all comparisons in the code are
  exact order comparisons and the only arithmetic is addition, subtraction
  and halving, so we model coordinates as rationals (`ℚ`).

* Python `Point` objects are mutable and compared by identity (the class
  defines no `__eq__`).  We model the heap explicitly: an element is an
  identity (`Nat`) and a `Store : Nat → ℚ × ℚ` maps each identity to its
  current coordinates.  In-place mutation (`Point.translate`) becomes a
  store update.  The tree stores identities, exactly as Python stores
  references.

* `PointQuadTree` creates its four subtrees all at once (`_subdivide`) and
  drops them all at once (`_clear_subtrees`), so the "children exist either
  all four or none" shape is baked into the inductive type: a `leaf` has no
  subtrees, a `node` has exactly four (upper-left, upper-right, lower-left,
  lower-right, in the iteration order of `_subtree_iterator`).
-/

namespace PQT

/-- Axis-aligned bounding box, from `axis_aligned_bounding_box.py`:
`(center_x, center_y, half_size_x, half_size_y)`. -/
structure AABB where
  center_x : ℚ
  center_y : ℚ
  half_size_x : ℚ
  half_size_y : ℚ
deriving DecidableEq, Repr

namespace AABB

/-- `AxisAlignedBoundingBox.contains`: closed-interval membership on both
axes, computed from center and half sizes. -/
def contains (b : AABB) (x y : ℚ) : Prop :=
  (b.center_x - b.half_size_x ≤ x ∧ x ≤ b.center_x + b.half_size_x) ∧
  (b.center_y - b.half_size_y ≤ y ∧ y ≤ b.center_y + b.half_size_y)

instance instDecidableContains (b : AABB) (x y : ℚ) : Decidable (contains b x y) := by
  unfold contains; infer_instance

/-- `AxisAlignedBoundingBox.intersects`: closed intervals overlap on both
axes. -/
def intersects (b other : AABB) : Prop :=
  b.center_x - b.half_size_x ≤ other.center_x + other.half_size_x ∧
  b.center_x + b.half_size_x ≥ other.center_x - other.half_size_x ∧
  b.center_y - b.half_size_y ≤ other.center_y + other.half_size_y ∧
  b.center_y + b.half_size_y ≥ other.center_y - other.half_size_y

instance instDecidableIntersects (b other : AABB) : Decidable (intersects b other) := by
  unfold intersects; infer_instance

/-- A point lying in both boxes forces the boxes to intersect.  This is the
geometric fact behind the query pruning step. -/
theorem intersects_of_contains_both {b r : AABB} {x y : ℚ}
    (hb : contains b x y) (hr : contains r x y) : intersects b r := by
  obtain ⟨⟨hb1, hb2⟩, hb3, hb4⟩ := hb
  obtain ⟨⟨hr1, hr2⟩, hr3, hr4⟩ := hr
  exact ⟨by linarith, by linarith, by linarith, by linarith⟩

end AABB

/-- `_calculate_subdivision_boundary`: half sizes are halved and the center
is shifted by `factor * half'` on each axis (factors are `±1`). -/
def subBoundary (b : AABB) (fx fy : ℚ) : AABB :=
  { center_x := b.center_x + fx * (b.half_size_x / 2)
    center_y := b.center_y + fy * (b.half_size_y / 2)
    half_size_x := b.half_size_x / 2
    half_size_y := b.half_size_y / 2 }

/-- Any point of a parent box lies in at least one of the four quadrant
boxes (the quadrants tile the parent, closed edges overlapping). -/
theorem quadrant_cover {b : AABB} {x y : ℚ} (h : b.contains x y) :
    (subBoundary b (-1) 1).contains x y ∨ (subBoundary b 1 1).contains x y ∨
    (subBoundary b (-1) (-1)).contains x y ∨ (subBoundary b 1 (-1)).contains x y := by
  obtain ⟨⟨hx1, hx2⟩, hy1, hy2⟩ := h
  rcases le_total x b.center_x with hx | hx <;> rcases le_total y b.center_y with hy | hy
  · exact Or.inr (Or.inr (Or.inl ⟨⟨by unfold subBoundary; dsimp; linarith,
      by unfold subBoundary; dsimp; linarith⟩,
      by unfold subBoundary; dsimp; linarith, by unfold subBoundary; dsimp; linarith⟩))
  · exact Or.inl ⟨⟨by unfold subBoundary; dsimp; linarith,
      by unfold subBoundary; dsimp; linarith⟩,
      by unfold subBoundary; dsimp; linarith, by unfold subBoundary; dsimp; linarith⟩
  · exact Or.inr (Or.inr (Or.inr ⟨⟨by unfold subBoundary; dsimp; linarith,
      by unfold subBoundary; dsimp; linarith⟩,
      by unfold subBoundary; dsimp; linarith, by unfold subBoundary; dsimp; linarith⟩))
  · exact Or.inr (Or.inl ⟨⟨by unfold subBoundary; dsimp; linarith,
      by unfold subBoundary; dsimp; linarith⟩,
      by unfold subBoundary; dsimp; linarith, by unfold subBoundary; dsimp; linarith⟩)

/-- A point of a quadrant box lies in the parent box (for the four factor
combinations actually used). -/
theorem quadrant_sub {b : AABB} {fx fy x y : ℚ}
    (hfx : fx = -1 ∨ fx = 1) (hfy : fy = -1 ∨ fy = 1)
    (h : (subBoundary b fx fy).contains x y) : b.contains x y := by
  obtain ⟨⟨hx1, hx2⟩, hy1, hy2⟩ := h
  unfold subBoundary at hx1 hx2 hy1 hy2
  dsimp at hx1 hx2 hy1 hy2
  rcases hfx with rfl | rfl <;> rcases hfy with rfl | rfl <;>
    exact ⟨⟨by linarith, by linarith⟩, by linarith, by linarith⟩

/-- The heap of `Point` objects: each identity has current coordinates.
`Point.translate` mutates the object in place; here that becomes an update
of the store at that identity. -/
def Store := Nat → ℚ × ℚ

/-- `contains_point`: containment test on an element's current coordinates. -/
def containsPt (b : AABB) (σ : Store) (i : Nat) : Prop :=
  b.contains (σ i).1 (σ i).2

instance instDecidableContainsPt (b : AABB) (σ : Store) (i : Nat) :
    Decidable (containsPt b σ i) := by
  unfold containsPt; infer_instance

/-- `Point.translate(x, y)` on the object with identity `i`. -/
def updStore (σ : Store) (i : Nat) (dx dy : ℚ) : Store :=
  fun j => if j = i then ((σ i).1 + dx, (σ i).2 + dy) else σ j

/-- A `PointQuadTree` node: boundary, capacity, resident points (element
identities, in insertion order) and either no subtrees or exactly four
(upper-left, upper-right, lower-left, lower-right — the order of
`_subtree_iterator`). -/
inductive PointQuadTree where
  | leaf (boundary : AABB) (capacity : Nat) (points : List Nat)
  | node (boundary : AABB) (capacity : Nat) (points : List Nat)
      (ul ur ll lr : PointQuadTree)
deriving DecidableEq, Repr

namespace PointQuadTree

def boundary : PointQuadTree → AABB
  | leaf b _ _ => b
  | node b _ _ _ _ _ _ => b

def capacity : PointQuadTree → Nat
  | leaf _ c _ => c
  | node _ c _ _ _ _ _ => c

def points : PointQuadTree → List Nat
  | leaf _ _ ps => ps
  | node _ _ ps _ _ _ _ => ps

def withPoints : PointQuadTree → List Nat → PointQuadTree
  | leaf b c _, qs => leaf b c qs
  | node b c _ ul ur ll lr, qs => node b c qs ul ur ll lr

/-- `_has_subdivided`. -/
def has_subdivided : PointQuadTree → Bool
  | leaf _ _ _ => false
  | node _ _ _ _ _ _ _ => true

/-- A fresh (empty) subdivision child, as created by `_create_subdivision`. -/
def freshKid (b : AABB) (c : Nat) (fx fy : ℚ) : PointQuadTree :=
  leaf (subBoundary b fx fy) c []

/-- `PointQuadTree.insert`, with the result of the trailing `assert False`
("could not insert into any subtree, this should never happen") modelled as
`InsRes.assertFailed`.  In the leaf-at-capacity case the code subdivides and
retries the insert on the four fresh empty children; such a child accepts
iff its quadrant contains the point and there is room (`0 < capacity`; for
capacity 0 — ruled out by the constructor's assertion — the Python code
would instead recurse forever). -/
inductive InsRes where
  | inserted
  | rejected
  | assertFailed
deriving DecidableEq, Repr

def insert (σ : Store) : PointQuadTree → Nat → PointQuadTree × InsRes
  | leaf b c ps, i =>
    if ¬ containsPt b σ i then (leaf b c ps, .rejected)
    else if ps.length < c then (leaf b c (ps ++ [i]), .inserted)
    else
      if containsPt (subBoundary b (-1) 1) σ i ∧ 0 < c then
        (node b c ps (leaf (subBoundary b (-1) 1) c [i]) (freshKid b c 1 1)
          (freshKid b c (-1) (-1)) (freshKid b c 1 (-1)), .inserted)
      else if containsPt (subBoundary b 1 1) σ i ∧ 0 < c then
        (node b c ps (freshKid b c (-1) 1) (leaf (subBoundary b 1 1) c [i])
          (freshKid b c (-1) (-1)) (freshKid b c 1 (-1)), .inserted)
      else if containsPt (subBoundary b (-1) (-1)) σ i ∧ 0 < c then
        (node b c ps (freshKid b c (-1) 1) (freshKid b c 1 1)
          (leaf (subBoundary b (-1) (-1)) c [i]) (freshKid b c 1 (-1)), .inserted)
      else if containsPt (subBoundary b 1 (-1)) σ i ∧ 0 < c then
        (node b c ps (freshKid b c (-1) 1) (freshKid b c 1 1)
          (freshKid b c (-1) (-1)) (leaf (subBoundary b 1 (-1)) c [i]), .inserted)
      else
        (node b c ps (freshKid b c (-1) 1) (freshKid b c 1 1)
          (freshKid b c (-1) (-1)) (freshKid b c 1 (-1)), .assertFailed)
  | node b c ps ul ur ll lr, i =>
    if ¬ containsPt b σ i then (node b c ps ul ur ll lr, .rejected)
    else if ps.length < c then (node b c (ps ++ [i]) ul ur ll lr, .inserted)
    else
      match insert σ ul i with
      | (ul', .inserted) => (node b c ps ul' ur ll lr, .inserted)
      | (ul', .assertFailed) => (node b c ps ul' ur ll lr, .assertFailed)
      | (ul', .rejected) =>
        match insert σ ur i with
        | (ur', .inserted) => (node b c ps ul' ur' ll lr, .inserted)
        | (ur', .assertFailed) => (node b c ps ul' ur' ll lr, .assertFailed)
        | (ur', .rejected) =>
          match insert σ ll i with
          | (ll', .inserted) => (node b c ps ul' ur' ll' lr, .inserted)
          | (ll', .assertFailed) => (node b c ps ul' ur' ll' lr, .assertFailed)
          | (ll', .rejected) =>
            match insert σ lr i with
            | (lr', .inserted) => (node b c ps ul' ur' ll' lr', .inserted)
            | (lr', .assertFailed) => (node b c ps ul' ur' ll' lr', .assertFailed)
            | (lr', .rejected) => (node b c ps ul' ur' ll' lr', .assertFailed)

/-- `clear`: drop all points and all subtrees. -/
def clear : PointQuadTree → PointQuadTree
  | t => leaf (boundary t) (capacity t) []

/-- `_pop_point`: remove and return the first resident point, if any. -/
def pop_point : PointQuadTree → Option Nat × PointQuadTree
  | leaf b c [] => (none, leaf b c [])
  | leaf b c (p :: rest) => (some p, leaf b c rest)
  | node b c [] ul ur ll lr => (none, node b c [] ul ur ll lr)
  | node b c (p :: rest) ul ur ll lr => (some p, node b c rest ul ur ll lr)

/-- `_remove_empty_subtrees`: if no immediate subtree has resident points
(`_has_subtree_points`), drop all four subtrees. -/
def remove_empty_subtrees : PointQuadTree → PointQuadTree
  | leaf b c ps => leaf b c ps
  | node b c ps ul ur ll lr =>
    if points ul = [] ∧ points ur = [] ∧ points ll = [] ∧ points lr = [] then
      leaf b c ps
    else node b c ps ul ur ll lr

/-- `_remove_from_subtree_leaf`: depth-first through subdivided nodes, pop
a point from the first non-empty leaf; prune empty subtrees on the way out. -/
def remove_from_subtree_leaf : PointQuadTree → Option Nat × PointQuadTree
  | leaf b c ps => pop_point (leaf b c ps)
  | node b c ps ul ur ll lr =>
    match remove_from_subtree_leaf ul with
    | (some j, ul') => (some j, remove_empty_subtrees (node b c ps ul' ur ll lr))
    | (none, ul') =>
      match remove_from_subtree_leaf ur with
      | (some j, ur') => (some j, remove_empty_subtrees (node b c ps ul' ur' ll lr))
      | (none, ur') =>
        match remove_from_subtree_leaf ll with
        | (some j, ll') => (some j, remove_empty_subtrees (node b c ps ul' ur' ll' lr))
        | (none, ll') =>
          match remove_from_subtree_leaf lr with
          | (some j, lr') => (some j, remove_empty_subtrees (node b c ps ul' ur' ll' lr'))
          | (none, lr') => (none, node b c ps ul' ur' ll' lr')

/-- `_remove_from_leaf`: only descend when subdivided. -/
def remove_from_leaf : PointQuadTree → Option Nat × PointQuadTree
  | leaf b c ps => (none, leaf b c ps)
  | node b c ps ul ur ll lr => remove_from_subtree_leaf (node b c ps ul ur ll lr)

/-- `_bubble_up_point`: refill this node's list from a descendant leaf. -/
def bubble_up_point (t : PointQuadTree) : PointQuadTree :=
  match remove_from_leaf t with
  | (some j, t2) => withPoints t2 (points t2 ++ [j])
  | (none, t2) => t2

/-- `_remove_from_self`: drop the first occurrence of the element from the
resident list, then bubble up. -/
def remove_from_self (t : PointQuadTree) (i : Nat) : PointQuadTree :=
  bubble_up_point (withPoints t ((points t).erase i))

/-- `PointQuadTree.remove`. -/
def remove (σ : Store) : PointQuadTree → Nat → PointQuadTree × Bool
  | leaf b c ps, i =>
    if ¬ containsPt b σ i then (leaf b c ps, false)
    else if i ∈ ps then (remove_from_self (leaf b c ps) i, true)
    else (leaf b c ps, false)
  | node b c ps ul ur ll lr, i =>
    if ¬ containsPt b σ i then (node b c ps ul ur ll lr, false)
    else if i ∈ ps then (remove_from_self (node b c ps ul ur ll lr) i, true)
    else
      match remove σ ul i with
      | (ul', true) => (remove_empty_subtrees (node b c ps ul' ur ll lr), true)
      | (ul', false) =>
        match remove σ ur i with
        | (ur', true) => (remove_empty_subtrees (node b c ps ul' ur' ll lr), true)
        | (ur', false) =>
          match remove σ ll i with
          | (ll', true) => (remove_empty_subtrees (node b c ps ul' ur' ll' lr), true)
          | (ll', false) =>
            match remove σ lr i with
            | (lr', true) => (remove_empty_subtrees (node b c ps ul' ur' ll' lr'), true)
            | (lr', false) => (node b c ps ul' ur' ll' lr', false)

/-- `TranslatePointResult`. -/
inductive TRes where
  | translated
  | out_of_bounds
  | not_in_tree
  | removed
deriving DecidableEq, Repr

/-- `_translate_point_in_self`: if the node's own boundary still contains
the shifted coordinates, mutate in place; otherwise remove (with bubble-up),
prune, mutate, and report `removed`. -/
def translate_in_self (σ : Store) (t : PointQuadTree) (i : Nat) (dx dy : ℚ) :
    TRes × PointQuadTree × Store :=
  if (boundary t).contains ((σ i).1 + dx) ((σ i).2 + dy) then
    (.translated, t, updStore σ i dx dy)
  else
    (.removed, remove_empty_subtrees (remove σ t i).1, updStore σ i dx dy)

/-- `PointQuadTree.translate_point` together with
`_translate_point_in_subtree` (the loop over the four subtrees, inlined).
When a subtree reports `removed` and this node's boundary contains the new
coordinates, the node re-inserts and discards `insert`'s return value,
exactly as the Python does. -/
def translate_point (σ : Store) :
    PointQuadTree → Nat → ℚ → ℚ → TRes × PointQuadTree × Store
  | leaf b c ps, i, dx, dy =>
    if ¬ containsPt b σ i then (.out_of_bounds, leaf b c ps, σ)
    else if i ∈ ps then translate_in_self σ (leaf b c ps) i dx dy
    else (.not_in_tree, leaf b c ps, σ)
  | node b c ps ul ur ll lr, i, dx, dy =>
    if ¬ containsPt b σ i then (.out_of_bounds, node b c ps ul ur ll lr, σ)
    else if i ∈ ps then translate_in_self σ (node b c ps ul ur ll lr) i dx dy
    else
      match translate_point σ ul i dx dy with
      | (.translated, ul', σ') => (.translated, node b c ps ul' ur ll lr, σ')
      | (.not_in_tree, ul', σ') => (.not_in_tree, node b c ps ul' ur ll lr, σ')
      | (.removed, ul', σ') =>
        if containsPt b σ' i then
          (.translated, (insert σ' (node b c ps ul' ur ll lr) i).1, σ')
        else (.removed, node b c ps ul' ur ll lr, σ')
      | (.out_of_bounds, ul', σ1) =>
        match translate_point σ1 ur i dx dy with
        | (.translated, ur', σ') => (.translated, node b c ps ul' ur' ll lr, σ')
        | (.not_in_tree, ur', σ') => (.not_in_tree, node b c ps ul' ur' ll lr, σ')
        | (.removed, ur', σ') =>
          if containsPt b σ' i then
            (.translated, (insert σ' (node b c ps ul' ur' ll lr) i).1, σ')
          else (.removed, node b c ps ul' ur' ll lr, σ')
        | (.out_of_bounds, ur', σ2) =>
          match translate_point σ2 ll i dx dy with
          | (.translated, ll', σ') => (.translated, node b c ps ul' ur' ll' lr, σ')
          | (.not_in_tree, ll', σ') => (.not_in_tree, node b c ps ul' ur' ll' lr, σ')
          | (.removed, ll', σ') =>
            if containsPt b σ' i then
              (.translated, (insert σ' (node b c ps ul' ur' ll' lr) i).1, σ')
            else (.removed, node b c ps ul' ur' ll' lr, σ')
          | (.out_of_bounds, ll', σ3) =>
            match translate_point σ3 lr i dx dy with
            | (.translated, lr', σ') => (.translated, node b c ps ul' ur' ll' lr', σ')
            | (.not_in_tree, lr', σ') => (.not_in_tree, node b c ps ul' ur' ll' lr', σ')
            | (.removed, lr', σ') =>
              if containsPt b σ' i then
                (.translated, (insert σ' (node b c ps ul' ur' ll' lr') i).1, σ')
              else (.removed, node b c ps ul' ur' ll' lr', σ')
            | (.out_of_bounds, lr', σ4) =>
              (.not_in_tree, node b c ps ul' ur' ll' lr', σ4)

/-- `get_all_points`: resident points first, then the four subtrees in
iteration order. -/
def get_all_points : PointQuadTree → List Nat
  | leaf _ _ ps => ps
  | node _ _ ps ul ur ll lr =>
    ps ++ get_all_points ul ++ get_all_points ur ++
      get_all_points ll ++ get_all_points lr

/-- `query_points_in_region`: prune when the boundary misses the region,
otherwise matching resident points first, then the four subtrees in order. -/
def query_points_in_region (σ : Store) : PointQuadTree → AABB → List Nat
  | leaf b _ ps, region =>
    if ¬ b.intersects region then []
    else ps.filter (fun i => decide (containsPt region σ i))
  | node b _ ps ul ur ll lr, region =>
    if ¬ b.intersects region then []
    else
      ps.filter (fun i => decide (containsPt region σ i)) ++
        query_points_in_region σ ul region ++ query_points_in_region σ ur region ++
        query_points_in_region σ ll region ++ query_points_in_region σ lr region

/-! ### Basic structural lemmas -/

@[simp] theorem boundary_leaf (b : AABB) (c : Nat) (ps : List Nat) :
    boundary (leaf b c ps) = b := rfl

@[simp] theorem boundary_node (b : AABB) (c : Nat) (ps : List Nat)
    (ul ur ll lr : PointQuadTree) : boundary (node b c ps ul ur ll lr) = b := rfl

@[simp] theorem capacity_leaf (b : AABB) (c : Nat) (ps : List Nat) :
    capacity (leaf b c ps) = c := rfl

@[simp] theorem capacity_node (b : AABB) (c : Nat) (ps : List Nat)
    (ul ur ll lr : PointQuadTree) : capacity (node b c ps ul ur ll lr) = c := rfl

@[simp] theorem points_leaf (b : AABB) (c : Nat) (ps : List Nat) :
    points (leaf b c ps) = ps := rfl

@[simp] theorem points_node (b : AABB) (c : Nat) (ps : List Nat)
    (ul ur ll lr : PointQuadTree) : points (node b c ps ul ur ll lr) = ps := rfl

@[simp] theorem boundary_withPoints (t : PointQuadTree) (qs : List Nat) :
    boundary (withPoints t qs) = boundary t := by cases t <;> rfl

@[simp] theorem capacity_withPoints (t : PointQuadTree) (qs : List Nat) :
    capacity (withPoints t qs) = capacity t := by cases t <;> rfl

@[simp] theorem points_withPoints (t : PointQuadTree) (qs : List Nat) :
    points (withPoints t qs) = qs := by cases t <;> rfl

theorem pop_point_eq (t : PointQuadTree) :
    pop_point t = ((points t).head?, withPoints t (points t).tail) := by
  cases t with
  | leaf b c ps => cases ps <;> rfl
  | node b c ps ul ur ll lr => cases ps <;> rfl

@[simp] theorem remove_empty_subtrees_leaf (b : AABB) (c : Nat) (ps : List Nat) :
    remove_empty_subtrees (leaf b c ps) = leaf b c ps := rfl

theorem remove_empty_subtrees_node (b : AABB) (c : Nat) (ps : List Nat)
    (ul ur ll lr : PointQuadTree) :
    remove_empty_subtrees (node b c ps ul ur ll lr) =
      if points ul = [] ∧ points ur = [] ∧ points ll = [] ∧ points lr = [] then
        leaf b c ps
      else node b c ps ul ur ll lr := rfl

@[simp] theorem boundary_remove_empty_subtrees (t : PointQuadTree) :
    boundary (remove_empty_subtrees t) = boundary t := by
  cases t with
  | leaf b c ps => rfl
  | node b c ps ul ur ll lr => rw [remove_empty_subtrees_node]; split <;> rfl

@[simp] theorem capacity_remove_empty_subtrees (t : PointQuadTree) :
    capacity (remove_empty_subtrees t) = capacity t := by
  cases t with
  | leaf b c ps => rfl
  | node b c ps ul ur ll lr => rw [remove_empty_subtrees_node]; split <;> rfl

@[simp] theorem points_remove_empty_subtrees (t : PointQuadTree) :
    points (remove_empty_subtrees t) = points t := by
  cases t with
  | leaf b c ps => rfl
  | node b c ps ul ur ll lr => rw [remove_empty_subtrees_node]; split <;> rfl

/-- The depth-first refill search never changes a node's boundary or
capacity, and on a subdivided node it never touches the node's own resident
list (on a leaf it pops from it). -/
theorem remove_from_subtree_leaf_meta (t : PointQuadTree) :
    boundary (remove_from_subtree_leaf t).2 = boundary t ∧
    capacity (remove_from_subtree_leaf t).2 = capacity t := by
  cases t with
  | leaf b c ps =>
    rw [remove_from_subtree_leaf, pop_point_eq]
    simp [points]
  | node b c ps ul ur ll lr =>
    unfold remove_from_subtree_leaf
    rcases remove_from_subtree_leaf ul with ⟨o1, ul'⟩
    rcases o1 with _ | j1
    · rcases remove_from_subtree_leaf ur with ⟨o2, ur'⟩
      rcases o2 with _ | j2
      · rcases remove_from_subtree_leaf ll with ⟨o3, ll'⟩
        rcases o3 with _ | j3
        · rcases remove_from_subtree_leaf lr with ⟨o4, lr'⟩
          rcases o4 with _ | j4 <;>
            simp only [boundary_remove_empty_subtrees, capacity_remove_empty_subtrees] <;>
            exact ⟨rfl, rfl⟩
        · simp only [boundary_remove_empty_subtrees, capacity_remove_empty_subtrees]
          exact ⟨rfl, rfl⟩
      · simp only [boundary_remove_empty_subtrees, capacity_remove_empty_subtrees]
        exact ⟨rfl, rfl⟩
    · simp only [boundary_remove_empty_subtrees, capacity_remove_empty_subtrees]
      exact ⟨rfl, rfl⟩

theorem remove_from_subtree_leaf_points_node (b : AABB) (c : Nat) (ps : List Nat)
    (ul ur ll lr : PointQuadTree) :
    points (remove_from_subtree_leaf (node b c ps ul ur ll lr)).2 = ps := by
  unfold remove_from_subtree_leaf
  rcases remove_from_subtree_leaf ul with ⟨o1, ul'⟩
  rcases o1 with _ | j1
  · rcases remove_from_subtree_leaf ur with ⟨o2, ur'⟩
    rcases o2 with _ | j2
    · rcases remove_from_subtree_leaf ll with ⟨o3, ll'⟩
      rcases o3 with _ | j3
      · rcases remove_from_subtree_leaf lr with ⟨o4, lr'⟩
        rcases o4 with _ | j4 <;> simp only [points_remove_empty_subtrees] <;> rfl
      · simp only [points_remove_empty_subtrees]; rfl
    · simp only [points_remove_empty_subtrees]; rfl
  · simp only [points_remove_empty_subtrees]; rfl

theorem remove_from_leaf_meta (t : PointQuadTree) :
    boundary (remove_from_leaf t).2 = boundary t ∧
    capacity (remove_from_leaf t).2 = capacity t ∧
    points (remove_from_leaf t).2 = points t := by
  cases t with
  | leaf b c ps => exact ⟨rfl, rfl, rfl⟩
  | node b c ps ul ur ll lr =>
    rw [remove_from_leaf]
    exact ⟨(remove_from_subtree_leaf_meta _).1, (remove_from_subtree_leaf_meta _).2,
      remove_from_subtree_leaf_points_node b c ps ul ur ll lr⟩

theorem bubble_up_point_meta (t : PointQuadTree) :
    boundary (bubble_up_point t) = boundary t ∧
    capacity (bubble_up_point t) = capacity t := by
  unfold bubble_up_point
  rcases h : remove_from_leaf t with ⟨o, t2⟩
  have hm := remove_from_leaf_meta t
  rw [h] at hm
  rcases o with _ | j <;> simp [hm.1, hm.2.1]

theorem remove_from_self_meta (t : PointQuadTree) (i : Nat) :
    boundary (remove_from_self t i) = boundary t ∧
    capacity (remove_from_self t i) = capacity t := by
  unfold remove_from_self
  have := bubble_up_point_meta (withPoints t ((points t).erase i))
  simpa using this

theorem insert_meta (σ : Store) (t : PointQuadTree) (i : Nat) :
    boundary (insert σ t i).1 = boundary t ∧
    capacity (insert σ t i).1 = capacity t := by
  cases t with
  | leaf b c ps =>
    by_cases hc : containsPt b σ i
    · by_cases hl : ps.length < c
      · simp [insert, hc, hl]
      · simp only [insert, hc, hl, if_true, if_false, not_true, not_false_iff]
        split_ifs <;> simp [boundary, capacity]
    · simp [insert, hc]
  | node b c ps ul ur ll lr =>
    by_cases hc : containsPt b σ i
    · by_cases hl : ps.length < c
      · simp [insert, hc, hl]
      · rcases h1 : insert σ ul i with ⟨ul', r1⟩
        rcases r1 with _ | _ | _
        · simp [insert, hc, hl, h1]
        · rcases h2 : insert σ ur i with ⟨ur', r2⟩
          rcases r2 with _ | _ | _
          · simp [insert, hc, hl, h1, h2]
          · rcases h3 : insert σ ll i with ⟨ll', r3⟩
            rcases r3 with _ | _ | _
            · simp [insert, hc, hl, h1, h2, h3]
            · rcases h4 : insert σ lr i with ⟨lr', r4⟩
              rcases r4 with _ | _ | _ <;>
                simp [insert, hc, hl, h1, h2, h3, h4]
            · simp [insert, hc, hl, h1, h2, h3]
          · simp [insert, hc, hl, h1, h2]
        · simp [insert, hc, hl, h1]
    · simp [insert, hc]

theorem remove_meta (σ : Store) (t : PointQuadTree) (i : Nat) :
    boundary (remove σ t i).1 = boundary t ∧
    capacity (remove σ t i).1 = capacity t := by
  cases t with
  | leaf b c ps =>
    by_cases hc : containsPt b σ i
    · by_cases hm : i ∈ ps
      · have := remove_from_self_meta (leaf b c ps) i
        simpa [remove, hc, hm] using this
      · simp [remove, hc, hm]
    · simp [remove, hc]
  | node b c ps ul ur ll lr =>
    by_cases hc : containsPt b σ i
    · by_cases hm : i ∈ ps
      · have := remove_from_self_meta (node b c ps ul ur ll lr) i
        simpa [remove, hc, hm] using this
      · rcases h1 : remove σ ul i with ⟨ul', b1⟩
        rcases b1 with _ | _
        · rcases h2 : remove σ ur i with ⟨ur', b2⟩
          rcases b2 with _ | _
          · rcases h3 : remove σ ll i with ⟨ll', b3⟩
            rcases b3 with _ | _
            · rcases h4 : remove σ lr i with ⟨lr', b4⟩
              rcases b4 with _ | _ <;>
                simp [remove, hc, hm, h1, h2, h3, h4]
            · simp [remove, hc, hm, h1, h2, h3]
          · simp [remove, hc, hm, h1, h2]
        · simp [remove, hc, hm, h1]
    · simp [remove, hc]

theorem translate_in_self_meta (σ : Store) (t : PointQuadTree) (i : Nat) (dx dy : ℚ) :
    boundary (translate_in_self σ t i dx dy).2.1 = boundary t ∧
    capacity (translate_in_self σ t i dx dy).2.1 = capacity t := by
  unfold translate_in_self
  split_ifs
  · exact ⟨rfl, rfl⟩
  · have := remove_meta σ t i
    simp [this.1, this.2]

theorem translate_point_meta (σ : Store) (t : PointQuadTree) (i : Nat) (dx dy : ℚ) :
    boundary (translate_point σ t i dx dy).2.1 = boundary t ∧
    capacity (translate_point σ t i dx dy).2.1 = capacity t := by
  cases t with
  | leaf b c ps =>
    by_cases hc : containsPt b σ i
    · by_cases hm : i ∈ ps
      · have := translate_in_self_meta σ (leaf b c ps) i dx dy
        simpa [translate_point, hc, hm] using this
      · simp [translate_point, hc, hm]
    · simp [translate_point, hc]
  | node b c ps ul ur ll lr =>
    by_cases hc : containsPt b σ i
    · by_cases hm : i ∈ ps
      · have := translate_in_self_meta σ (node b c ps ul ur ll lr) i dx dy
        simpa [translate_point, hc, hm] using this
      · rcases h1 : translate_point σ ul i dx dy with ⟨r1, ul', σ1⟩
        rcases r1 with _ | _ | _ | _
        · simp [translate_point, hc, hm, h1]
        · rcases h2 : translate_point σ1 ur i dx dy with ⟨r2, ur', σ2⟩
          rcases r2 with _ | _ | _ | _
          · simp [translate_point, hc, hm, h1, h2]
          · rcases h3 : translate_point σ2 ll i dx dy with ⟨r3, ll', σ3⟩
            rcases r3 with _ | _ | _ | _
            · simp [translate_point, hc, hm, h1, h2, h3]
            · rcases h4 : translate_point σ3 lr i dx dy with ⟨r4, lr', σ4⟩
              rcases r4 with _ | _ | _ | _
              · simp [translate_point, hc, hm, h1, h2, h3, h4]
              · simp [translate_point, hc, hm, h1, h2, h3, h4]
              · simp [translate_point, hc, hm, h1, h2, h3, h4]
              · have := insert_meta σ4 (node b c ps ul' ur' ll' lr') i
                by_cases hre : containsPt b σ4 i <;>
                  simp [translate_point, hc, hm, h1, h2, h3, h4, hre, this.1, this.2]
            · simp [translate_point, hc, hm, h1, h2, h3]
            · have := insert_meta σ3 (node b c ps ul' ur' ll' lr) i
              by_cases hre : containsPt b σ3 i <;>
                simp [translate_point, hc, hm, h1, h2, h3, hre, this.1, this.2]
          · simp [translate_point, hc, hm, h1, h2]
          · have := insert_meta σ2 (node b c ps ul' ur' ll lr) i
            by_cases hre : containsPt b σ2 i <;>
              simp [translate_point, hc, hm, h1, h2, hre, this.1, this.2]
        · simp [translate_point, hc, hm, h1]
        · have := insert_meta σ1 (node b c ps ul' ur ll lr) i
          by_cases hre : containsPt b σ1 i <;>
            simp [translate_point, hc, hm, h1, hre, this.1, this.2]
    · simp [translate_point, hc]

/-! ### Failed operations leave the tree untouched -/

theorem insert_not_contains {σ : Store} {t : PointQuadTree} {i : Nat}
    (h : ¬ containsPt (boundary t) σ i) : insert σ t i = (t, .rejected) := by
  cases t with
  | leaf b c ps => simp only [boundary_leaf] at h; simp [insert, h]
  | node b c ps ul ur ll lr => simp only [boundary_node] at h; simp [insert, h]

theorem insert_snd_ne_rejected {σ : Store} {t : PointQuadTree} {i : Nat}
    (hc : containsPt (boundary t) σ i) : (insert σ t i).2 ≠ .rejected := by
  cases t with
  | leaf b c ps =>
    simp only [boundary_leaf] at hc
    by_cases hl : ps.length < c
    · simp [insert, hc, hl]
    · simp only [insert, hc, hl, not_true_eq_false, if_false, if_true]
      split_ifs <;> simp
  | node b c ps ul ur ll lr =>
    simp only [boundary_node] at hc
    by_cases hl : ps.length < c
    · simp [insert, hc, hl]
    · rcases h1 : insert σ ul i with ⟨ul', r1⟩
      rcases r1 with _ | _ | _
      · simp [insert, hc, hl, h1]
      · rcases h2 : insert σ ur i with ⟨ur', r2⟩
        rcases r2 with _ | _ | _
        · simp [insert, hc, hl, h1, h2]
        · rcases h3 : insert σ ll i with ⟨ll', r3⟩
          rcases r3 with _ | _ | _
          · simp [insert, hc, hl, h1, h2, h3]
          · rcases h4 : insert σ lr i with ⟨lr', r4⟩
            rcases r4 with _ | _ | _ <;> simp [insert, hc, hl, h1, h2, h3, h4]
          · simp [insert, hc, hl, h1, h2, h3]
        · simp [insert, hc, hl, h1, h2]
      · simp [insert, hc, hl, h1]

/-- A rejected insert (the only `False` return) leaves the tree unchanged
and happens exactly on an out-of-boundary point. -/
theorem insert_rejected {σ : Store} {t : PointQuadTree} {i : Nat}
    (h : (insert σ t i).2 = .rejected) :
    (insert σ t i).1 = t ∧ ¬ containsPt (boundary t) σ i := by
  by_cases hc : containsPt (boundary t) σ i
  · exact absurd h (insert_snd_ne_rejected hc)
  · rw [insert_not_contains hc]; exact ⟨rfl, hc⟩

/-- A failed remove leaves the tree unchanged. -/
theorem remove_false_unchanged (t : PointQuadTree) :
    ∀ (σ : Store) (i : Nat), (remove σ t i).2 = false → (remove σ t i).1 = t := by
  induction t with
  | leaf b c ps =>
    intro σ i h
    by_cases hc : containsPt b σ i
    · by_cases hm : i ∈ ps
      · simp [remove, hc, hm] at h
      · simp [remove, hc, hm]
    · simp [remove, hc]
  | node b c ps ul ur ll lr ihul ihur ihll ihlr =>
    intro σ i h
    by_cases hc : containsPt b σ i
    · by_cases hm : i ∈ ps
      · simp [remove, hc, hm] at h
      · rcases h1 : remove σ ul i with ⟨ul', b1⟩
        rcases b1 with _ | _
        · rcases h2 : remove σ ur i with ⟨ur', b2⟩
          rcases b2 with _ | _
          · rcases h3 : remove σ ll i with ⟨ll', b3⟩
            rcases b3 with _ | _
            · rcases h4 : remove σ lr i with ⟨lr', b4⟩
              rcases b4 with _ | _
              · have e1 := ihul σ i (by rw [h1])
                have e2 := ihur σ i (by rw [h2])
                have e3 := ihll σ i (by rw [h3])
                have e4 := ihlr σ i (by rw [h4])
                rw [h1] at e1; rw [h2] at e2; rw [h3] at e3; rw [h4] at e4
                dsimp only at e1 e2 e3 e4
                simp [remove, hc, hm, h1, h2, h3, h4, e1, e2, e3, e4]
              · simp [remove, hc, hm, h1, h2, h3, h4] at h
            · simp [remove, hc, hm, h1, h2, h3] at h
          · simp [remove, hc, hm, h1, h2] at h
        · simp [remove, hc, hm, h1] at h
    · simp [remove, hc]

/-- A `translate_point` call that reports `out_of_bounds` or `not_in_tree`
changes neither the tree nor any point's coordinates. -/
theorem translate_fail_unchanged (t : PointQuadTree) :
    ∀ (σ : Store) (i : Nat) (dx dy : ℚ),
      ((translate_point σ t i dx dy).1 = .out_of_bounds ∨
        (translate_point σ t i dx dy).1 = .not_in_tree) →
      (translate_point σ t i dx dy).2.1 = t ∧ (translate_point σ t i dx dy).2.2 = σ := by
  induction t with
  | leaf b c ps =>
    intro σ i dx dy h
    by_cases hc : containsPt b σ i
    · by_cases hm : i ∈ ps
      · exfalso
        rcases h with h | h <;>
        · rw [translate_point] at h
          simp only [hc, not_true_eq_false, if_false, hm, if_true] at h
          unfold translate_in_self at h
          split_ifs at h <;> simp at h
      · simp [translate_point, hc, hm]
    · simp [translate_point, hc]
  | node b c ps ul ur ll lr ihul ihur ihll ihlr =>
    intro σ i dx dy h
    by_cases hc : containsPt b σ i
    · by_cases hm : i ∈ ps
      · exfalso
        rcases h with h | h <;>
        · rw [translate_point] at h
          simp only [hc, not_true_eq_false, if_false, hm, if_true] at h
          unfold translate_in_self at h
          split_ifs at h <;> simp at h
      · rcases h1 : translate_point σ ul i dx dy with ⟨r1, ul', σ1⟩
        rcases r1 with _ | _ | _ | _
        · simp [translate_point, hc, hm, h1] at h
        · obtain ⟨e1, f1⟩ := ihul σ i dx dy (by rw [h1]; exact Or.inl rfl)
          rw [h1] at e1 f1; dsimp only at e1 f1; subst e1; subst f1
          rcases h2 : translate_point σ1 ur i dx dy with ⟨r2, ur', σ2⟩
          rcases r2 with _ | _ | _ | _
          · simp [translate_point, hc, hm, h1, h2] at h
          · obtain ⟨e2, f2⟩ := ihur σ1 i dx dy (by rw [h2]; exact Or.inl rfl)
            rw [h2] at e2 f2; dsimp only at e2 f2; subst e2; subst f2
            rcases h3 : translate_point σ2 ll i dx dy with ⟨r3, ll', σ3⟩
            rcases r3 with _ | _ | _ | _
            · simp [translate_point, hc, hm, h1, h2, h3] at h
            · obtain ⟨e3, f3⟩ := ihll σ2 i dx dy (by rw [h3]; exact Or.inl rfl)
              rw [h3] at e3 f3; dsimp only at e3 f3; subst e3; subst f3
              rcases h4 : translate_point σ3 lr i dx dy with ⟨r4, lr', σ4⟩
              rcases r4 with _ | _ | _ | _
              · simp [translate_point, hc, hm, h1, h2, h3, h4] at h
              · obtain ⟨e4, f4⟩ := ihlr σ3 i dx dy (by rw [h4]; exact Or.inl rfl)
                rw [h4] at e4 f4; dsimp only at e4 f4; subst e4; subst f4
                simp [translate_point, hc, hm, h1, h2, h3, h4]
              · obtain ⟨e4, f4⟩ := ihlr σ3 i dx dy (by rw [h4]; exact Or.inr rfl)
                rw [h4] at e4 f4; dsimp only at e4 f4; subst e4; subst f4
                simp [translate_point, hc, hm, h1, h2, h3, h4]
              · exfalso
                rw [translate_point] at h
                simp only [hc, not_true_eq_false, if_false, hm, h1, h2, h3, h4] at h
                split_ifs at h <;> simp at h
            · obtain ⟨e3, f3⟩ := ihll σ2 i dx dy (by rw [h3]; exact Or.inr rfl)
              rw [h3] at e3 f3; dsimp only at e3 f3; subst e3; subst f3
              simp [translate_point, hc, hm, h1, h2, h3]
            · exfalso
              rw [translate_point] at h
              simp only [hc, not_true_eq_false, if_false, hm, h1, h2, h3] at h
              split_ifs at h <;> simp at h
          · obtain ⟨e2, f2⟩ := ihur σ1 i dx dy (by rw [h2]; exact Or.inr rfl)
            rw [h2] at e2 f2; dsimp only at e2 f2; subst e2; subst f2
            simp [translate_point, hc, hm, h1, h2]
          · exfalso
            rw [translate_point] at h
            simp only [hc, not_true_eq_false, if_false, hm, h1, h2] at h
            split_ifs at h <;> simp at h
        · obtain ⟨e1, f1⟩ := ihul σ i dx dy (by rw [h1]; exact Or.inr rfl)
          rw [h1] at e1 f1; dsimp only at e1 f1; subst e1; subst f1
          simp [translate_point, hc, hm, h1]
        · exfalso
          rw [translate_point] at h
          simp only [hc, not_true_eq_false, if_false, hm, h1] at h
          split_ifs at h <;> simp at h
    · simp [translate_point, hc]

/-! ### Structural invariants: capacity positivity, quadrant tiling,
capacity bound on resident lists -/

/-- Every node's capacity is at least 1 (`__init__` asserts it; children
inherit it). -/
@[reducible] def capPos : PointQuadTree → Prop
  | leaf _ c _ => 1 ≤ c
  | node _ c _ ul ur ll lr => 1 ≤ c ∧ capPos ul ∧ capPos ur ∧ capPos ll ∧ capPos lr

/-- Every node's resident list is within its capacity (spec §3 invariant 2). -/
@[reducible] def lenOK : PointQuadTree → Prop
  | leaf _ c ps => ps.length ≤ c
  | node _ c ps ul ur ll lr =>
      ps.length ≤ c ∧ lenOK ul ∧ lenOK ur ∧ lenOK ll ∧ lenOK lr

/-- Every subdivided node's children carry exactly the four quadrant
boundaries and the parent's capacity (spec §3 invariant 4). -/
@[reducible] def tiled : PointQuadTree → Prop
  | leaf _ _ _ => True
  | node b c _ ul ur ll lr =>
      boundary ul = subBoundary b (-1) 1 ∧ capacity ul = c ∧
      boundary ur = subBoundary b 1 1 ∧ capacity ur = c ∧
      boundary ll = subBoundary b (-1) (-1) ∧ capacity ll = c ∧
      boundary lr = subBoundary b 1 (-1) ∧ capacity lr = c ∧
      tiled ul ∧ tiled ur ∧ tiled ll ∧ tiled lr

@[simp] theorem capPos_leaf (b : AABB) (c : Nat) (ps : List Nat) :
    capPos (leaf b c ps) ↔ 1 ≤ c := Iff.rfl

@[simp] theorem capPos_node (b : AABB) (c : Nat) (ps : List Nat)
    (ul ur ll lr : PointQuadTree) :
    capPos (node b c ps ul ur ll lr) ↔
      1 ≤ c ∧ capPos ul ∧ capPos ur ∧ capPos ll ∧ capPos lr := Iff.rfl

@[simp] theorem lenOK_leaf (b : AABB) (c : Nat) (ps : List Nat) :
    lenOK (leaf b c ps) ↔ ps.length ≤ c := Iff.rfl

@[simp] theorem lenOK_node (b : AABB) (c : Nat) (ps : List Nat)
    (ul ur ll lr : PointQuadTree) :
    lenOK (node b c ps ul ur ll lr) ↔
      ps.length ≤ c ∧ lenOK ul ∧ lenOK ur ∧ lenOK ll ∧ lenOK lr := Iff.rfl

@[simp] theorem tiled_leaf (b : AABB) (c : Nat) (ps : List Nat) :
    tiled (leaf b c ps) := trivial

@[simp] theorem tiled_node (b : AABB) (c : Nat) (ps : List Nat)
    (ul ur ll lr : PointQuadTree) :
    tiled (node b c ps ul ur ll lr) ↔
      boundary ul = subBoundary b (-1) 1 ∧ capacity ul = c ∧
      boundary ur = subBoundary b 1 1 ∧ capacity ur = c ∧
      boundary ll = subBoundary b (-1) (-1) ∧ capacity ll = c ∧
      boundary lr = subBoundary b 1 (-1) ∧ capacity lr = c ∧
      tiled ul ∧ tiled ur ∧ tiled ll ∧ tiled lr := Iff.rfl

/-- The three structural invariants bundled. -/
@[reducible] def Inv (t : PointQuadTree) : Prop := capPos t ∧ tiled t ∧ lenOK t

theorem Inv_withPoints {t : PointQuadTree} {qs : List Nat} (h : Inv t)
    (hq : qs.length ≤ capacity t) : Inv (withPoints t qs) := by
  obtain ⟨h1, h2, h3⟩ := h
  cases t with
  | leaf b c ps => exact ⟨h1, trivial, hq⟩
  | node b c ps ul ur ll lr =>
    exact ⟨h1, h2, hq, (lenOK_node b c ps ul ur ll lr).1 h3 |>.2⟩

theorem Inv_remove_empty_subtrees {t : PointQuadTree} (h : Inv t) :
    Inv (remove_empty_subtrees t) := by
  obtain ⟨h1, h2, h3⟩ := h
  cases t with
  | leaf b c ps => exact ⟨h1, h2, h3⟩
  | node b c ps ul ur ll lr =>
    rw [remove_empty_subtrees_node]
    split_ifs with he
    · exact ⟨h1.1, trivial, h3.1⟩
    · exact ⟨h1, h2, h3⟩

theorem Inv_pop_point {t : PointQuadTree} (h : Inv t) : Inv (pop_point t).2 := by
  rw [pop_point_eq]
  refine Inv_withPoints h ?_
  calc (points t).tail.length ≤ (points t).length := by
        cases points t <;> simp
    _ ≤ capacity t := by
        obtain ⟨h1, h2, h3⟩ := h
        cases t with
        | leaf b c ps => exact h3
        | node b c ps ul ur ll lr => exact h3.1

theorem Inv_remove_from_subtree_leaf {t : PointQuadTree} (h : Inv t) :
    Inv (remove_from_subtree_leaf t).2 := by
  induction t with
  | leaf b c ps => exact Inv_pop_point h
  | node b c ps ul ur ll lr ihul ihur ihll ihlr =>
    obtain ⟨hp, ht, hl⟩ := h
    obtain ⟨hbul, hcul, hbur, hcur, hbll, hcll, hblr, hclr, htul, htur, htll, htlr⟩ := ht
    have iul := ihul ⟨hp.2.1, htul, hl.2.1⟩
    have iur := ihur ⟨hp.2.2.1, htur, hl.2.2.1⟩
    have ill := ihll ⟨hp.2.2.2.1, htll, hl.2.2.2.1⟩
    have ilr := ihlr ⟨hp.2.2.2.2, htlr, hl.2.2.2.2⟩
    have mul := remove_from_subtree_leaf_meta ul
    have mur := remove_from_subtree_leaf_meta ur
    have mll := remove_from_subtree_leaf_meta ll
    have mlr := remove_from_subtree_leaf_meta lr
    rw [remove_from_subtree_leaf]
    rcases h1 : remove_from_subtree_leaf ul with ⟨o1, ul'⟩
    rw [h1] at iul mul
    rcases o1 with _ | j1
    case some =>
      (try dsimp only); refine Inv_remove_empty_subtrees ?_; exact ⟨⟨hp.1, iul.1, hp.2.2.1, hp.2.2.2.1, hp.2.2.2.2⟩,
        ⟨mul.1.trans hbul, mul.2.trans hcul, hbur, hcur, hbll, hcll, hblr, hclr,
          iul.2.1, htur, htll, htlr⟩,
        ⟨hl.1, iul.2.2, hl.2.2.1, hl.2.2.2.1, hl.2.2.2.2⟩⟩
    case none =>
    rcases h2 : remove_from_subtree_leaf ur with ⟨o2, ur'⟩
    rw [h2] at iur mur
    rcases o2 with _ | j2
    case some =>
      (try dsimp only); refine Inv_remove_empty_subtrees ?_; exact ⟨⟨hp.1, iul.1, iur.1, hp.2.2.2.1, hp.2.2.2.2⟩,
        ⟨mul.1.trans hbul, mul.2.trans hcul, mur.1.trans hbur, mur.2.trans hcur,
          hbll, hcll, hblr, hclr, iul.2.1, iur.2.1, htll, htlr⟩,
        ⟨hl.1, iul.2.2, iur.2.2, hl.2.2.2.1, hl.2.2.2.2⟩⟩
    case none =>
    rcases h3 : remove_from_subtree_leaf ll with ⟨o3, ll'⟩
    rw [h3] at ill mll
    rcases o3 with _ | j3
    case some =>
      (try dsimp only); refine Inv_remove_empty_subtrees ?_; exact ⟨⟨hp.1, iul.1, iur.1, ill.1, hp.2.2.2.2⟩,
        ⟨mul.1.trans hbul, mul.2.trans hcul, mur.1.trans hbur, mur.2.trans hcur,
          mll.1.trans hbll, mll.2.trans hcll, hblr, hclr,
          iul.2.1, iur.2.1, ill.2.1, htlr⟩,
        ⟨hl.1, iul.2.2, iur.2.2, ill.2.2, hl.2.2.2.2⟩⟩
    case none =>
    rcases h4 : remove_from_subtree_leaf lr with ⟨o4, lr'⟩
    rw [h4] at ilr mlr
    rcases o4 with _ | j4
    case some =>
      (try dsimp only); refine Inv_remove_empty_subtrees ?_; exact ⟨⟨hp.1, iul.1, iur.1, ill.1, ilr.1⟩,
        ⟨mul.1.trans hbul, mul.2.trans hcul, mur.1.trans hbur, mur.2.trans hcur,
          mll.1.trans hbll, mll.2.trans hcll, mlr.1.trans hblr, mlr.2.trans hclr,
          iul.2.1, iur.2.1, ill.2.1, ilr.2.1⟩,
        ⟨hl.1, iul.2.2, iur.2.2, ill.2.2, ilr.2.2⟩⟩
    case none =>
      exact ⟨⟨hp.1, iul.1, iur.1, ill.1, ilr.1⟩,
        ⟨mul.1.trans hbul, mul.2.trans hcul, mur.1.trans hbur, mur.2.trans hcur,
          mll.1.trans hbll, mll.2.trans hcll, mlr.1.trans hblr, mlr.2.trans hclr,
          iul.2.1, iur.2.1, ill.2.1, ilr.2.1⟩,
        ⟨hl.1, iul.2.2, iur.2.2, ill.2.2, ilr.2.2⟩⟩

theorem Inv_remove_from_leaf {t : PointQuadTree} (h : Inv t) :
    Inv (remove_from_leaf t).2 := by
  cases t with
  | leaf b c ps => exact h
  | node b c ps ul ur ll lr => rw [remove_from_leaf]; exact Inv_remove_from_subtree_leaf h

theorem Inv_bubble_up_point {t : PointQuadTree} (h : Inv t)
    (hs : (points t).length < capacity t) : Inv (bubble_up_point t) := by
  unfold bubble_up_point
  rcases hrl : remove_from_leaf t with ⟨o, t2⟩
  have hi := Inv_remove_from_leaf h
  have hm := remove_from_leaf_meta t
  rw [hrl] at hi hm
  rcases o with _ | j
  · exact hi
  · dsimp only at hi hm ⊢
    refine Inv_withPoints hi ?_
    rw [hm.2.2, hm.2.1]
    simpa using hs

theorem Inv_remove_from_self {t : PointQuadTree} {i : Nat} (h : Inv t)
    (hm : i ∈ points t) : Inv (remove_from_self t i) := by
  unfold remove_from_self
  have hlen : (points t).length ≤ capacity t := by
    obtain ⟨h1, h2, h3⟩ := h
    cases t with
    | leaf b c ps => exact h3
    | node b c ps ul ur ll lr => exact h3.1
  have herase : ((points t).erase i).length < (points t).length := by
    rw [List.length_erase_of_mem hm]
    exact Nat.pred_lt (Nat.pos_iff_ne_zero.mp (List.length_pos_of_mem hm))
  refine Inv_bubble_up_point (Inv_withPoints h (le_of_lt (lt_of_lt_of_le herase hlen))) ?_
  simpa using lt_of_lt_of_le herase hlen

theorem Inv_remove {σ : Store} (t : PointQuadTree) (i : Nat) (h : Inv t) :
    Inv (remove σ t i).1 := by
  induction t with
  | leaf b c ps =>
    by_cases hc : containsPt b σ i
    · by_cases hm : i ∈ ps
      · have := Inv_remove_from_self h (by simpa using hm)
        simpa [remove, hc, hm] using this
      · simpa [remove, hc, hm] using h
    · simpa [remove, hc] using h
  | node b c ps ul ur ll lr ihul ihur ihll ihlr =>
    obtain ⟨hp, ht, hl⟩ := h
    obtain ⟨hbul, hcul, hbur, hcur, hbll, hcll, hblr, hclr, htul, htur, htll, htlr⟩ := ht
    by_cases hc : containsPt b σ i
    · by_cases hm : i ∈ ps
      · have := @Inv_remove_from_self (node b c ps ul ur ll lr) i
          ⟨hp, ⟨hbul, hcul, hbur, hcur, hbll, hcll, hblr, hclr, htul, htur, htll, htlr⟩, hl⟩
          (by simpa using hm)
        simpa [remove, hc, hm] using this
      · have iul := ihul ⟨hp.2.1, htul, hl.2.1⟩
        have iur := ihur ⟨hp.2.2.1, htur, hl.2.2.1⟩
        have ill := ihll ⟨hp.2.2.2.1, htll, hl.2.2.2.1⟩
        have ilr := ihlr ⟨hp.2.2.2.2, htlr, hl.2.2.2.2⟩
        have mul := remove_meta σ ul i
        have mur := remove_meta σ ur i
        have mll := remove_meta σ ll i
        have mlr := remove_meta σ lr i
        rcases h1 : remove σ ul i with ⟨ul', b1⟩
        rw [h1] at iul mul
        rcases b1 with _ | _
        next =>
          rcases h2 : remove σ ur i with ⟨ur', b2⟩
          rw [h2] at iur mur
          rcases b2 with _ | _
          next =>
            rcases h3 : remove σ ll i with ⟨ll', b3⟩
            rw [h3] at ill mll
            rcases b3 with _ | _
            next =>
              rcases h4 : remove σ lr i with ⟨lr', b4⟩
              rw [h4] at ilr mlr
              rcases b4 with _ | _
              next =>
                simp only [remove, hc, hm, h1, h2, h3, h4, not_true_eq_false, if_false,
                  if_true, not_false_eq_true]
                exact ⟨⟨hp.1, iul.1, iur.1, ill.1, ilr.1⟩,
                  ⟨mul.1.trans hbul, mul.2.trans hcul, mur.1.trans hbur, mur.2.trans hcur,
                    mll.1.trans hbll, mll.2.trans hcll, mlr.1.trans hblr, mlr.2.trans hclr,
                    iul.2.1, iur.2.1, ill.2.1, ilr.2.1⟩,
                  ⟨hl.1, iul.2.2, iur.2.2, ill.2.2, ilr.2.2⟩⟩
              next =>
                simp only [remove, hc, hm, h1, h2, h3, h4, not_true_eq_false, if_false,
                  if_true, not_false_eq_true]
                (try dsimp only); refine Inv_remove_empty_subtrees ?_; exact ⟨⟨hp.1, iul.1, iur.1, ill.1, ilr.1⟩,
                  ⟨mul.1.trans hbul, mul.2.trans hcul, mur.1.trans hbur, mur.2.trans hcur,
                    mll.1.trans hbll, mll.2.trans hcll, mlr.1.trans hblr, mlr.2.trans hclr,
                    iul.2.1, iur.2.1, ill.2.1, ilr.2.1⟩,
                  ⟨hl.1, iul.2.2, iur.2.2, ill.2.2, ilr.2.2⟩⟩
            next =>
              simp only [remove, hc, hm, h1, h2, h3, not_true_eq_false, if_false,
                if_true, not_false_eq_true]
              (try dsimp only); refine Inv_remove_empty_subtrees ?_; exact ⟨⟨hp.1, iul.1, iur.1, ill.1, hp.2.2.2.2⟩,
                ⟨mul.1.trans hbul, mul.2.trans hcul, mur.1.trans hbur, mur.2.trans hcur,
                  mll.1.trans hbll, mll.2.trans hcll, hblr, hclr,
                  iul.2.1, iur.2.1, ill.2.1, htlr⟩,
                ⟨hl.1, iul.2.2, iur.2.2, ill.2.2, hl.2.2.2.2⟩⟩
          next =>
            simp only [remove, hc, hm, h1, h2, not_true_eq_false, if_false,
              if_true, not_false_eq_true]
            (try dsimp only); refine Inv_remove_empty_subtrees ?_; exact ⟨⟨hp.1, iul.1, iur.1, hp.2.2.2.1, hp.2.2.2.2⟩,
              ⟨mul.1.trans hbul, mul.2.trans hcul, mur.1.trans hbur, mur.2.trans hcur,
                hbll, hcll, hblr, hclr, iul.2.1, iur.2.1, htll, htlr⟩,
              ⟨hl.1, iul.2.2, iur.2.2, hl.2.2.2.1, hl.2.2.2.2⟩⟩
        next =>
          simp only [remove, hc, hm, h1, not_true_eq_false, if_false,
            if_true, not_false_eq_true]
          (try dsimp only); refine Inv_remove_empty_subtrees ?_; exact ⟨⟨hp.1, iul.1, hp.2.2.1, hp.2.2.2.1, hp.2.2.2.2⟩,
            ⟨mul.1.trans hbul, mul.2.trans hcul, hbur, hcur, hbll, hcll, hblr, hclr,
              iul.2.1, htur, htll, htlr⟩,
            ⟨hl.1, iul.2.2, hl.2.2.1, hl.2.2.2.1, hl.2.2.2.2⟩⟩
    · simpa [remove, hc] using
        (⟨⟨hp.1, hp.2.1, hp.2.2.1, hp.2.2.2.1, hp.2.2.2.2⟩,
          ⟨hbul, hcul, hbur, hcur, hbll, hcll, hblr, hclr, htul, htur, htll, htlr⟩,
          hl⟩ : Inv (node b c ps ul ur ll lr))

theorem Inv_insert {σ : Store} (t : PointQuadTree) (i : Nat) (h : Inv t) :
    Inv (insert σ t i).1 := by
  induction t with
  | leaf b c ps =>
    obtain ⟨hp, ht, hl⟩ := h
    by_cases hc : containsPt b σ i
    · by_cases hlen : ps.length < c
      · simp only [insert, hc, hlen, not_true_eq_false, if_false, if_true]
        exact ⟨hp, trivial, by simpa using hlen⟩
      · simp only [insert, hc, hlen, not_true_eq_false, if_false, if_true]
        split_ifs <;>
          exact ⟨⟨hp, hp, hp, hp, hp⟩,
            ⟨rfl, rfl, rfl, rfl, rfl, rfl, rfl, rfl, trivial, trivial, trivial, trivial⟩,
            ⟨hl, by simpa [freshKid] using hp, by simpa [freshKid] using hp, by simpa [freshKid] using hp, by simpa [freshKid] using hp⟩⟩
    · simp only [insert_not_contains
        (show ¬ containsPt (boundary (leaf b c ps)) σ i from hc)]
      exact ⟨hp, ht, hl⟩
  | node b c ps ul ur ll lr ihul ihur ihll ihlr =>
    obtain ⟨hp, ht, hl⟩ := h
    obtain ⟨hbul, hcul, hbur, hcur, hbll, hcll, hblr, hclr, htul, htur, htll, htlr⟩ := ht
    by_cases hc : containsPt b σ i
    · by_cases hlen : ps.length < c
      · simp only [insert, hc, hlen, not_true_eq_false, if_false, if_true]
        exact ⟨hp, ⟨hbul, hcul, hbur, hcur, hbll, hcll, hblr, hclr, htul, htur, htll, htlr⟩,
          by simpa using hlen, hl.2.1, hl.2.2.1, hl.2.2.2.1, hl.2.2.2.2⟩
      · have iul := ihul ⟨hp.2.1, htul, hl.2.1⟩
        have iur := ihur ⟨hp.2.2.1, htur, hl.2.2.1⟩
        have ill := ihll ⟨hp.2.2.2.1, htll, hl.2.2.2.1⟩
        have ilr := ihlr ⟨hp.2.2.2.2, htlr, hl.2.2.2.2⟩
        have mul := insert_meta σ ul i
        have mur := insert_meta σ ur i
        have mll := insert_meta σ ll i
        have mlr := insert_meta σ lr i
        rcases h1 : insert σ ul i with ⟨ul', r1⟩
        rw [h1] at iul mul
        have goal1 : Inv (node b c ps ul' ur ll lr) :=
          ⟨⟨hp.1, iul.1, hp.2.2.1, hp.2.2.2.1, hp.2.2.2.2⟩,
            ⟨mul.1.trans hbul, mul.2.trans hcul, hbur, hcur, hbll, hcll, hblr, hclr,
              iul.2.1, htur, htll, htlr⟩,
            ⟨hl.1, iul.2.2, hl.2.2.1, hl.2.2.2.1, hl.2.2.2.2⟩⟩
        rcases r1 with _ | _ | _
        · simpa [insert, hc, hlen, h1] using goal1
        · rcases h2 : insert σ ur i with ⟨ur', r2⟩
          rw [h2] at iur mur
          have goal2 : Inv (node b c ps ul' ur' ll lr) :=
            ⟨⟨hp.1, iul.1, iur.1, hp.2.2.2.1, hp.2.2.2.2⟩,
              ⟨mul.1.trans hbul, mul.2.trans hcul, mur.1.trans hbur, mur.2.trans hcur,
                hbll, hcll, hblr, hclr, iul.2.1, iur.2.1, htll, htlr⟩,
              ⟨hl.1, iul.2.2, iur.2.2, hl.2.2.2.1, hl.2.2.2.2⟩⟩
          rcases r2 with _ | _ | _
          · simpa [insert, hc, hlen, h1, h2] using goal2
          · rcases h3 : insert σ ll i with ⟨ll', r3⟩
            rw [h3] at ill mll
            have goal3 : Inv (node b c ps ul' ur' ll' lr) :=
              ⟨⟨hp.1, iul.1, iur.1, ill.1, hp.2.2.2.2⟩,
                ⟨mul.1.trans hbul, mul.2.trans hcul, mur.1.trans hbur, mur.2.trans hcur,
                  mll.1.trans hbll, mll.2.trans hcll, hblr, hclr,
                  iul.2.1, iur.2.1, ill.2.1, htlr⟩,
                ⟨hl.1, iul.2.2, iur.2.2, ill.2.2, hl.2.2.2.2⟩⟩
            rcases r3 with _ | _ | _
            · simpa [insert, hc, hlen, h1, h2, h3] using goal3
            · rcases h4 : insert σ lr i with ⟨lr', r4⟩
              rw [h4] at ilr mlr
              have goal4 : Inv (node b c ps ul' ur' ll' lr') :=
                ⟨⟨hp.1, iul.1, iur.1, ill.1, ilr.1⟩,
                  ⟨mul.1.trans hbul, mul.2.trans hcul, mur.1.trans hbur, mur.2.trans hcur,
                    mll.1.trans hbll, mll.2.trans hcll, mlr.1.trans hblr, mlr.2.trans hclr,
                    iul.2.1, iur.2.1, ill.2.1, ilr.2.1⟩,
                  ⟨hl.1, iul.2.2, iur.2.2, ill.2.2, ilr.2.2⟩⟩
              rcases r4 with _ | _ | _ <;> simpa [insert, hc, hlen, h1, h2, h3, h4] using goal4
            · simpa [insert, hc, hlen, h1, h2, h3] using goal3
          · simpa [insert, hc, hlen, h1, h2] using goal2
        · simpa [insert, hc, hlen, h1] using goal1
    · simp only [insert_not_contains
        (show ¬ containsPt (boundary (node b c ps ul ur ll lr)) σ i from hc)]
      exact ⟨⟨hp.1, hp.2.1, hp.2.2.1, hp.2.2.2.1, hp.2.2.2.2⟩,
        ⟨hbul, hcul, hbur, hcur, hbll, hcll, hblr, hclr, htul, htur, htll, htlr⟩, hl⟩

theorem Inv_clear (t : PointQuadTree) (h : Inv t) : Inv (clear t) := by
  rcases h with ⟨hp, _, _⟩
  cases t with
  | leaf b c ps => exact ⟨hp, trivial, by simp [clear]⟩
  | node b c ps ul ur ll lr => exact ⟨hp.1, trivial, by simp [clear]⟩

theorem Inv_translate_in_self {σ : Store} (t : PointQuadTree) (i : Nat) (dx dy : ℚ)
    (h : Inv t) : Inv (translate_in_self σ t i dx dy).2.1 := by
  unfold translate_in_self
  split_ifs
  · exact h
  · exact Inv_remove_empty_subtrees (Inv_remove t i h)

theorem Inv_translate_point (t : PointQuadTree) :
    ∀ (σ : Store) (i : Nat) (dx dy : ℚ), Inv t →
      Inv (translate_point σ t i dx dy).2.1 := by
  induction t with
  | leaf b c ps =>
    intro σ i dx dy h
    by_cases hc : containsPt b σ i
    · by_cases hm : i ∈ ps
      · have := @Inv_translate_in_self σ (leaf b c ps) i dx dy h
        simpa [translate_point, hc, hm] using this
      · simpa [translate_point, hc, hm] using h
    · simpa [translate_point, hc] using h
  | node b c ps ul ur ll lr ihul ihur ihll ihlr =>
    intro σ i dx dy h
    obtain ⟨hp, ht, hl⟩ := h
    obtain ⟨hbul, hcul, hbur, hcur, hbll, hcll, hblr, hclr, htul, htur, htll, htlr⟩ := ht
    by_cases hc : containsPt b σ i
    · by_cases hm : i ∈ ps
      · have := @Inv_translate_in_self σ (node b c ps ul ur ll lr) i dx dy
          ⟨hp, ⟨hbul, hcul, hbur, hcur, hbll, hcll, hblr, hclr, htul, htur, htll, htlr⟩, hl⟩
        simpa [translate_point, hc, hm] using this
      · have mul := translate_point_meta σ ul i dx dy
        rcases h1 : translate_point σ ul i dx dy with ⟨r1, ul', σ1⟩
        have iul := ihul σ i dx dy ⟨hp.2.1, htul, hl.2.1⟩
        rw [h1] at iul mul
        have goal1 : Inv (node b c ps ul' ur ll lr) :=
          ⟨⟨hp.1, iul.1, hp.2.2.1, hp.2.2.2.1, hp.2.2.2.2⟩,
            ⟨mul.1.trans hbul, mul.2.trans hcul, hbur, hcur, hbll, hcll, hblr, hclr,
              iul.2.1, htur, htll, htlr⟩,
            ⟨hl.1, iul.2.2, hl.2.2.1, hl.2.2.2.1, hl.2.2.2.2⟩⟩
        rcases r1 with _ | _ | _ | _
        · simpa [translate_point, hc, hm, h1] using goal1
        · have mur := translate_point_meta σ1 ur i dx dy
          rcases h2 : translate_point σ1 ur i dx dy with ⟨r2, ur', σ2⟩
          have iur := ihur σ1 i dx dy ⟨hp.2.2.1, htur, hl.2.2.1⟩
          rw [h2] at iur mur
          have goal2 : Inv (node b c ps ul' ur' ll lr) :=
            ⟨⟨hp.1, iul.1, iur.1, hp.2.2.2.1, hp.2.2.2.2⟩,
              ⟨mul.1.trans hbul, mul.2.trans hcul, mur.1.trans hbur, mur.2.trans hcur,
                hbll, hcll, hblr, hclr, iul.2.1, iur.2.1, htll, htlr⟩,
              ⟨hl.1, iul.2.2, iur.2.2, hl.2.2.2.1, hl.2.2.2.2⟩⟩
          rcases r2 with _ | _ | _ | _
          · simpa [translate_point, hc, hm, h1, h2] using goal2
          · have mll := translate_point_meta σ2 ll i dx dy
            rcases h3 : translate_point σ2 ll i dx dy with ⟨r3, ll', σ3⟩
            have ill := ihll σ2 i dx dy ⟨hp.2.2.2.1, htll, hl.2.2.2.1⟩
            rw [h3] at ill mll
            have goal3 : Inv (node b c ps ul' ur' ll' lr) :=
              ⟨⟨hp.1, iul.1, iur.1, ill.1, hp.2.2.2.2⟩,
                ⟨mul.1.trans hbul, mul.2.trans hcul, mur.1.trans hbur, mur.2.trans hcur,
                  mll.1.trans hbll, mll.2.trans hcll, hblr, hclr,
                  iul.2.1, iur.2.1, ill.2.1, htlr⟩,
                ⟨hl.1, iul.2.2, iur.2.2, ill.2.2, hl.2.2.2.2⟩⟩
            rcases r3 with _ | _ | _ | _
            · simpa [translate_point, hc, hm, h1, h2, h3] using goal3
            · have mlr := translate_point_meta σ3 lr i dx dy
              rcases h4 : translate_point σ3 lr i dx dy with ⟨r4, lr', σ4⟩
              have ilr := ihlr σ3 i dx dy ⟨hp.2.2.2.2, htlr, hl.2.2.2.2⟩
              rw [h4] at ilr mlr
              have goal4 : Inv (node b c ps ul' ur' ll' lr') :=
                ⟨⟨hp.1, iul.1, iur.1, ill.1, ilr.1⟩,
                  ⟨mul.1.trans hbul, mul.2.trans hcul, mur.1.trans hbur, mur.2.trans hcur,
                    mll.1.trans hbll, mll.2.trans hcll, mlr.1.trans hblr, mlr.2.trans hclr,
                    iul.2.1, iur.2.1, ill.2.1, ilr.2.1⟩,
                  ⟨hl.1, iul.2.2, iur.2.2, ill.2.2, ilr.2.2⟩⟩
              rcases r4 with _ | _ | _ | _
              · simpa [translate_point, hc, hm, h1, h2, h3, h4] using goal4
              · simpa [translate_point, hc, hm, h1, h2, h3, h4] using goal4
              · simpa [translate_point, hc, hm, h1, h2, h3, h4] using goal4
              · by_cases hre : containsPt b σ4 i
                · have := @Inv_insert σ4 (node b c ps ul' ur' ll' lr') i goal4
                  simpa [translate_point, hc, hm, h1, h2, h3, h4, hre] using this
                · simpa [translate_point, hc, hm, h1, h2, h3, h4, hre] using goal4
            · simpa [translate_point, hc, hm, h1, h2, h3] using goal3
            · by_cases hre : containsPt b σ3 i
              · have := @Inv_insert σ3 (node b c ps ul' ur' ll' lr) i goal3
                simpa [translate_point, hc, hm, h1, h2, h3, hre] using this
              · simpa [translate_point, hc, hm, h1, h2, h3, hre] using goal3
          · simpa [translate_point, hc, hm, h1, h2] using goal2
          · by_cases hre : containsPt b σ2 i
            · have := @Inv_insert σ2 (node b c ps ul' ur' ll lr) i goal2
              simpa [translate_point, hc, hm, h1, h2, hre] using this
            · simpa [translate_point, hc, hm, h1, h2, hre] using goal2
        · simpa [translate_point, hc, hm, h1] using goal1
        · by_cases hre : containsPt b σ1 i
          · have := @Inv_insert σ1 (node b c ps ul' ur ll lr) i goal1
            simpa [translate_point, hc, hm, h1, hre] using this
          · simpa [translate_point, hc, hm, h1, hre] using goal1
    · simpa [translate_point, hc] using
        (⟨hp, ⟨hbul, hcul, hbur, hcur, hbll, hcll, hblr, hclr, htul, htur, htll, htlr⟩,
          hl⟩ : Inv (node b c ps ul ur ll lr))

end PointQuadTree

open PointQuadTree in
/-- Tree states (with their heap of point coordinates) reachable from a
fresh tree (`__init__` asserts `node_capacity >= 1`) by any sequence of
`insert`, `remove`, `translate_point` and `clear` calls on the root. -/
inductive Reach : PointQuadTree → Store → Prop where
  | init (b : AABB) (c : Nat) (σ : Store) (h : 1 ≤ c) : Reach (.leaf b c []) σ
  | ins {t : PointQuadTree} {σ : Store} (i : Nat) (h : Reach t σ) :
      Reach (insert σ t i).1 σ
  | rem {t : PointQuadTree} {σ : Store} (i : Nat) (h : Reach t σ) :
      Reach (remove σ t i).1 σ
  | mov {t : PointQuadTree} {σ : Store} (i : Nat) (dx dy : ℚ) (h : Reach t σ) :
      Reach (translate_point σ t i dx dy).2.1 (translate_point σ t i dx dy).2.2
  | clr {t : PointQuadTree} {σ : Store} (h : Reach t σ) : Reach (clear t) σ

open PointQuadTree in
/-- Reachability restricted to histories that never insert an element that
is already stored (no aliasing: each stored Python object is referenced at
most once by the tree). -/
inductive ReachND : PointQuadTree → Store → Prop where
  | init (b : AABB) (c : Nat) (σ : Store) (h : 1 ≤ c) : ReachND (.leaf b c []) σ
  | ins {t : PointQuadTree} {σ : Store} (i : Nat) (hni : i ∉ get_all_points t)
      (h : ReachND t σ) : ReachND (insert σ t i).1 σ
  | rem {t : PointQuadTree} {σ : Store} (i : Nat) (h : ReachND t σ) :
      ReachND (remove σ t i).1 σ
  | mov {t : PointQuadTree} {σ : Store} (i : Nat) (dx dy : ℚ) (h : ReachND t σ) :
      ReachND (translate_point σ t i dx dy).2.1 (translate_point σ t i dx dy).2.2
  | clr {t : PointQuadTree} {σ : Store} (h : ReachND t σ) : ReachND (clear t) σ


namespace PointQuadTree

/-- All reachable states satisfy the structural invariants. -/
theorem Reach_Inv {t : PointQuadTree} {σ : Store} (h : Reach t σ) : Inv t := by
  induction h with
  | init b c σ h => exact ⟨h, trivial, by simp⟩
  | ins i h ih => exact Inv_insert _ _ ih
  | rem i h ih => exact Inv_remove _ _ ih
  | mov i dx dy h ih => exact Inv_translate_point _ _ _ _ _ ih
  | clr h ih => exact Inv_clear _ ih

theorem ReachND_Inv {t : PointQuadTree} {σ : Store} (h : ReachND t σ) : Inv t := by
  induction h with
  | init b c σ h => exact ⟨h, trivial, by simp⟩
  | ins i hni h ih => exact Inv_insert _ _ ih
  | rem i h ih => exact Inv_remove _ _ ih
  | mov i dx dy h ih => exact Inv_translate_point _ _ _ _ _ ih
  | clr h ih => exact Inv_clear _ ih

/-- Under the structural invariants, `insert` succeeds exactly on points the
node's boundary contains — the four quadrants cover the boundary, so the
"no child accepts" branch (`assert False`) is never taken. -/
theorem insert_snd_char (t : PointQuadTree) :
    ∀ (σ : Store) (i : Nat), capPos t → tiled t →
      (insert σ t i).2 =
        if containsPt (boundary t) σ i then .inserted else .rejected := by
  induction t with
  | leaf b c ps =>
    intro σ i hcap ht
    by_cases hc : containsPt b σ i
    · by_cases hlen : ps.length < c
      · simp [insert, hc, hlen]
      · have hcover := quadrant_cover hc
        have hcpos : 0 < c := hcap
        simp only [insert, hc, hlen, not_true_eq_false, if_false, if_true,
          boundary_leaf]
        split_ifs with q1 q2 q3 q4
        · rfl
        · rfl
        · rfl
        · rfl
        · exfalso
          rcases hcover with h | h | h | h
          · exact q1 ⟨h, hcpos⟩
          · exact q2 ⟨h, hcpos⟩
          · exact q3 ⟨h, hcpos⟩
          · exact q4 ⟨h, hcpos⟩
    · simp [insert, hc]
  | node b c ps ul ur ll lr ihul ihur ihll ihlr =>
    intro σ i hcap ht
    obtain ⟨hbul, hcul, hbur, hcur, hbll, hcll, hblr, hclr, htul, htur, htll, htlr⟩ := ht
    by_cases hc : containsPt b σ i
    · by_cases hlen : ps.length < c
      · simp [insert, hc, hlen]
      · have cul := ihul σ i hcap.2.1 htul
        have cur := ihur σ i hcap.2.2.1 htur
        have cll := ihll σ i hcap.2.2.2.1 htll
        have clr := ihlr σ i hcap.2.2.2.2 htlr
        rw [hbul] at cul; rw [hbur] at cur; rw [hbll] at cll; rw [hblr] at clr
        by_cases q1 : containsPt (subBoundary b (-1) 1) σ i
        · rcases h1 : insert σ ul i with ⟨ul', r1⟩
          rw [h1] at cul; rw [if_pos q1] at cul; dsimp only at cul; subst cul
          simp [insert, hc, hlen, h1]
        · rcases h1 : insert σ ul i with ⟨ul', r1⟩
          rw [h1] at cul; rw [if_neg q1] at cul; dsimp only at cul; subst cul
          by_cases q2 : containsPt (subBoundary b 1 1) σ i
          · rcases h2 : insert σ ur i with ⟨ur', r2⟩
            rw [h2] at cur; rw [if_pos q2] at cur; dsimp only at cur; subst cur
            simp [insert, hc, hlen, h1, h2]
          · rcases h2 : insert σ ur i with ⟨ur', r2⟩
            rw [h2] at cur; rw [if_neg q2] at cur; dsimp only at cur; subst cur
            by_cases q3 : containsPt (subBoundary b (-1) (-1)) σ i
            · rcases h3 : insert σ ll i with ⟨ll', r3⟩
              rw [h3] at cll; rw [if_pos q3] at cll; dsimp only at cll; subst cll
              simp [insert, hc, hlen, h1, h2, h3]
            · rcases h3 : insert σ ll i with ⟨ll', r3⟩
              rw [h3] at cll; rw [if_neg q3] at cll; dsimp only at cll; subst cll
              by_cases q4 : containsPt (subBoundary b 1 (-1)) σ i
              · rcases h4 : insert σ lr i with ⟨lr', r4⟩
                rw [h4] at clr; rw [if_pos q4] at clr; dsimp only at clr; subst clr
                simp [insert, hc, hlen, h1, h2, h3, h4]
              · exfalso
                rcases quadrant_cover hc with h | h | h | h
                · exact q1 h
                · exact q2 h
                · exact q3 h
                · exact q4 h
    · simp [insert_not_contains (show ¬ containsPt (boundary (node b c ps ul ur ll lr)) σ i
        from hc), hc]

/-! ### Geometric invariant: every resident point lies in its node's
boundary.  Needed for query pruning soundness. -/

@[simp] theorem all_leaf (b : AABB) (c : Nat) (ps : List Nat) :
    get_all_points (leaf b c ps) = ps := rfl

@[simp] theorem all_node (b : AABB) (c : Nat) (ps : List Nat)
    (ul ur ll lr : PointQuadTree) :
    get_all_points (node b c ps ul ur ll lr) =
      ps ++ get_all_points ul ++ get_all_points ur ++
        get_all_points ll ++ get_all_points lr := rfl

/-- The concatenation of the four subtrees' contents (empty for a leaf). -/
def subtree_points : PointQuadTree → List Nat
  | leaf _ _ _ => []
  | node _ _ _ ul ur ll lr =>
      get_all_points ul ++ get_all_points ur ++ get_all_points ll ++ get_all_points lr

theorem all_eq_points_append (t : PointQuadTree) :
    get_all_points t = points t ++ subtree_points t := by
  cases t with
  | leaf b c ps => simp [subtree_points]
  | node b c ps ul ur ll lr => simp [subtree_points]

@[simp] theorem subtree_points_withPoints (t : PointQuadTree) (qs : List Nat) :
    subtree_points (withPoints t qs) = subtree_points t := by
  cases t <;> rfl

theorem mem_points_mem_all {t : PointQuadTree} {j : Nat} (h : j ∈ points t) :
    j ∈ get_all_points t := by
  rw [all_eq_points_append]; exact List.mem_append_left _ h

@[reducible] def geoOK (σ : Store) : PointQuadTree → Prop
  | leaf b _ ps => ∀ j ∈ ps, containsPt b σ j
  | node b _ ps ul ur ll lr =>
      (∀ j ∈ ps, containsPt b σ j) ∧
      geoOK σ ul ∧ geoOK σ ur ∧ geoOK σ ll ∧ geoOK σ lr

theorem containsPt_quadrant_sub {b : AABB} {fx fy : ℚ} {σ : Store} {j : Nat}
    (hfx : fx = -1 ∨ fx = 1) (hfy : fy = -1 ∨ fy = 1)
    (h : containsPt (subBoundary b fx fy) σ j) : containsPt b σ j :=
  quadrant_sub hfx hfy h

/-- With tiling, every element anywhere in a subtree lies inside the
subtree's boundary. -/
theorem geo_all {σ : Store} (t : PointQuadTree) (htl : tiled t) (hg : geoOK σ t) :
    ∀ j ∈ get_all_points t, containsPt (boundary t) σ j := by
  induction t with
  | leaf b c ps => exact hg
  | node b c ps ul ur ll lr ihul ihur ihll ihlr =>
    obtain ⟨hbul, _, hbur, _, hbll, _, hblr, _, htul, htur, htll, htlr⟩ := htl
    intro j hj
    simp only [all_node, List.mem_append] at hj
    rcases hj with ⟨⟨⟨hj | hj⟩ | hj⟩ | hj⟩ | hj
    · exact hg.1 j hj
    · have := ihul htul hg.2.1 j hj
      rw [hbul] at this
      exact containsPt_quadrant_sub (Or.inl rfl) (Or.inr rfl) this
    · have := ihur htur hg.2.2.1 j hj
      rw [hbur] at this
      exact containsPt_quadrant_sub (Or.inr rfl) (Or.inr rfl) this
    · have := ihll htll hg.2.2.2.1 j hj
      rw [hbll] at this
      exact containsPt_quadrant_sub (Or.inl rfl) (Or.inl rfl) this
    · have := ihlr htlr hg.2.2.2.2 j hj
      rw [hblr] at this
      exact containsPt_quadrant_sub (Or.inr rfl) (Or.inl rfl) this

@[simp] theorem updStore_ne {σ : Store} {i : Nat} {dx dy : ℚ} {j : Nat} (h : j ≠ i) :
    updStore σ i dx dy j = σ j := by simp [updStore, h]

theorem containsPt_upd_ne {b : AABB} {σ : Store} {i : Nat} {dx dy : ℚ} {j : Nat}
    (h : j ≠ i) : containsPt b (updStore σ i dx dy) j ↔ containsPt b σ j := by
  unfold containsPt
  rw [updStore_ne h]

/-- Updating the coordinates of an element not stored in a subtree keeps the
subtree geometrically sound. -/
theorem geoOK_upd_not_mem {σ : Store} {i : Nat} {dx dy : ℚ} (t : PointQuadTree)
    (hg : geoOK σ t) (hni : i ∉ get_all_points t) :
    geoOK (updStore σ i dx dy) t := by
  induction t with
  | leaf b c ps =>
    intro j hj
    have : j ≠ i := fun he => hni (he ▸ @mem_points_mem_all (leaf b c ps) j hj)
    exact (containsPt_upd_ne this).2 (hg j hj)
  | node b c ps ul ur ll lr ihul ihur ihll ihlr =>
    simp only [all_node, List.mem_append, not_or] at hni
    refine ⟨?_, ihul hg.2.1 hni.1.1.1.2, ihur hg.2.2.1 hni.1.1.2,
      ihll hg.2.2.2.1 hni.1.2, ihlr hg.2.2.2.2 hni.2⟩
    intro j hj
    have : j ≠ i := fun he => hni.1.1.1.1 (he ▸ hj)
    exact (containsPt_upd_ne this).2 (hg.1 j hj)

theorem geoOK_withPoints {σ : Store} {t : PointQuadTree} {qs : List Nat}
    (hg : geoOK σ t) (hq : ∀ j ∈ qs, containsPt (boundary t) σ j) :
    geoOK σ (withPoints t qs) := by
  cases t with
  | leaf b c ps => exact hq
  | node b c ps ul ur ll lr => exact ⟨hq, hg.2.1, hg.2.2.1, hg.2.2.2.1, hg.2.2.2.2⟩

theorem geoOK_remove_empty_subtrees {σ : Store} {t : PointQuadTree}
    (hg : geoOK σ t) : geoOK σ (remove_empty_subtrees t) := by
  cases t with
  | leaf b c ps => exact hg
  | node b c ps ul ur ll lr =>
    rw [remove_empty_subtrees_node]
    split_ifs with he
    · exact hg.1
    · exact hg

theorem ms_remove_empty_subtrees (t : PointQuadTree) :
    (↑(get_all_points (remove_empty_subtrees t)) : Multiset Nat) ≤
      ↑(get_all_points t) := by
  cases t with
  | leaf b c ps => exact le_refl _
  | node b c ps ul ur ll lr =>
    rw [remove_empty_subtrees_node]
    split_ifs with he
    · simp only [all_leaf, all_node, ← Multiset.coe_add]
      exact le_add_right (le_add_right (le_add_right (le_add_right (le_refl _))))
    · exact le_refl _

theorem geoOK_points {σ : Store} {t : PointQuadTree} (hg : geoOK σ t) :
    ∀ j ∈ points t, containsPt (boundary t) σ j := by
  cases t with
  | leaf b c ps => exact hg
  | node b c ps ul ur ll lr => exact hg.1

@[simp] theorem tiled_withPoints (t : PointQuadTree) (qs : List Nat) :
    tiled (withPoints t qs) ↔ tiled t := by
  cases t <;> exact Iff.rfl

theorem ms_coe_append (l1 l2 : List Nat) :
    ((l1 ++ l2 : List Nat) : Multiset Nat) = ↑l1 + ↑l2 :=
  (Multiset.coe_add l1 l2).symm

/-- A failed depth-first refill search leaves the tree untouched. -/
theorem rfsl_none_unchanged (t : PointQuadTree) :
    ∀ {t2 : PointQuadTree}, remove_from_subtree_leaf t = (none, t2) → t2 = t := by
  induction t with
  | leaf b c ps =>
    intro t2 h
    cases ps with
    | nil => rw [remove_from_subtree_leaf] at h; simp [pop_point] at h; exact h.symm
    | cons p rest => rw [remove_from_subtree_leaf] at h; simp [pop_point] at h
  | node b c ps ul ur ll lr ihul ihur ihll ihlr =>
    intro t2 h
    rw [remove_from_subtree_leaf] at h
    rcases h1 : remove_from_subtree_leaf ul with ⟨o1, ul'⟩
    rw [h1] at h
    rcases o1 with _ | j1
    case some => simp at h
    case none =>
    have e1 := ihul h1
    subst e1
    rcases h2 : remove_from_subtree_leaf ur with ⟨o2, ur'⟩
    rw [h2] at h
    rcases o2 with _ | j2
    case some => simp at h
    case none =>
    have e2 := ihur h2
    subst e2
    rcases h3 : remove_from_subtree_leaf ll with ⟨o3, ll'⟩
    rw [h3] at h
    rcases o3 with _ | j3
    case some => simp at h
    case none =>
    have e3 := ihll h3
    subst e3
    rcases h4 : remove_from_subtree_leaf lr with ⟨o4, lr'⟩
    rw [h4] at h
    rcases o4 with _ | j4
    case some => simp at h
    case none =>
    have e4 := ihlr h4
    subst e4
    simp at h
    exact h.symm

theorem ms_shuf1 (j : Nat) {B B' : Multiset Nat} (A C D E : Multiset Nat)
    (h : j ::ₘ B' ≤ B) : j ::ₘ (A + B' + C + D + E) ≤ A + B + C + D + E := by
  have he : j ::ₘ (A + B' + C + D + E) = A + (j ::ₘ B') + C + D + E := by
    simp [Multiset.cons_add, Multiset.add_cons]
  rw [he]
  exact add_le_add (add_le_add (add_le_add (add_le_add (le_refl _) h)
    (le_refl _)) (le_refl _)) (le_refl _)

theorem ms_shuf2 (j : Nat) {C C' : Multiset Nat} (A B D E : Multiset Nat)
    (h : j ::ₘ C' ≤ C) : j ::ₘ (A + B + C' + D + E) ≤ A + B + C + D + E := by
  have he : j ::ₘ (A + B + C' + D + E) = A + B + (j ::ₘ C') + D + E := by
    simp [Multiset.cons_add, Multiset.add_cons]
  rw [he]
  exact add_le_add (add_le_add (add_le_add (le_refl _) h) (le_refl _)) (le_refl _)

theorem ms_shuf3 (j : Nat) {D D' : Multiset Nat} (A B C E : Multiset Nat)
    (h : j ::ₘ D' ≤ D) : j ::ₘ (A + B + C + D' + E) ≤ A + B + C + D + E := by
  have he : j ::ₘ (A + B + C + D' + E) = A + B + C + (j ::ₘ D') + E := by
    simp [Multiset.cons_add, Multiset.add_cons]
  rw [he]
  exact add_le_add (add_le_add (le_refl _) h) (le_refl _)

theorem ms_shuf4 (j : Nat) {E E' : Multiset Nat} (A B C D : Multiset Nat)
    (h : j ::ₘ E' ≤ E) : j ::ₘ (A + B + C + D + E') ≤ A + B + C + D + E := by
  have he : j ::ₘ (A + B + C + D + E') = A + B + C + D + (j ::ₘ E') := by
    simp [Multiset.cons_add, Multiset.add_cons]
  rw [he]
  exact add_le_add (le_refl _) h

/-- A successful depth-first refill pop: the popped element was stored in
the subtree (inside its boundary), and the result holds the remaining
elements. -/
theorem rfsl_some (t : PointQuadTree) :
    ∀ (σ : Store), geoOK σ t → tiled t → ∀ {j : Nat} {t2 : PointQuadTree},
      remove_from_subtree_leaf t = (some j, t2) →
      geoOK σ t2 ∧ containsPt (boundary t) σ j ∧
        (j ::ₘ (↑(get_all_points t2) : Multiset Nat)) ≤ ↑(get_all_points t) := by
  induction t with
  | leaf b c ps =>
    intro σ hg htl j t2 heq
    cases ps with
    | nil => rw [remove_from_subtree_leaf] at heq; simp [pop_point] at heq
    | cons p rest =>
      rw [remove_from_subtree_leaf] at heq
      simp only [pop_point, Prod.mk.injEq, Option.some.injEq] at heq
      obtain ⟨rfl, rfl⟩ := heq
      refine ⟨fun x hx => hg x (List.mem_cons_of_mem _ hx),
        hg p (List.mem_cons_self _ _), ?_⟩
      simp [Multiset.cons_coe]
  | node b c ps ul ur ll lr ihul ihur ihll ihlr =>
    intro σ hg htl j t2 heq
    obtain ⟨hbul, _, hbur, _, hbll, _, hblr, _, htul, htur, htll, htlr⟩ := htl
    rw [remove_from_subtree_leaf] at heq
    rcases h1 : remove_from_subtree_leaf ul with ⟨o1, ul'⟩
    rw [h1] at heq
    rcases o1 with _ | j1
    case some =>
      simp only [Prod.mk.injEq, Option.some.injEq] at heq
      obtain ⟨rfl, rfl⟩ := heq
      obtain ⟨g1, c1, m1⟩ := ihul σ hg.2.1 htul h1
      refine ⟨geoOK_remove_empty_subtrees ⟨hg.1, g1, hg.2.2.1, hg.2.2.2.1, hg.2.2.2.2⟩,
        containsPt_quadrant_sub (Or.inl rfl) (Or.inr rfl) (hbul ▸ c1), ?_⟩
      calc (j1 ::ₘ (↑(get_all_points (remove_empty_subtrees (node b c ps ul' ur ll lr))) :
            Multiset Nat))
          ≤ j1 ::ₘ ↑(get_all_points (node b c ps ul' ur ll lr)) :=
            Multiset.cons_le_cons _ (ms_remove_empty_subtrees _)
        _ = j1 ::ₘ ((↑ps : Multiset Nat) + ↑(get_all_points ul') + ↑(get_all_points ur) +
            ↑(get_all_points ll) + ↑(get_all_points lr)) := by
            simp only [all_node, ← Multiset.coe_add]
        _ ≤ (↑ps : Multiset Nat) + ↑(get_all_points ul) + ↑(get_all_points ur) +
            ↑(get_all_points ll) + ↑(get_all_points lr) := ms_shuf1 j1 _ _ _ _ m1
        _ = ↑(get_all_points (node b c ps ul ur ll lr)) := by
            simp only [all_node, ← Multiset.coe_add]
    case none =>
    have e1 := rfsl_none_unchanged ul h1
    rw [e1] at heq
    rcases h2 : remove_from_subtree_leaf ur with ⟨o2, ur'⟩
    rw [h2] at heq
    rcases o2 with _ | j2
    case some =>
      simp only [Prod.mk.injEq, Option.some.injEq] at heq
      obtain ⟨rfl, rfl⟩ := heq
      obtain ⟨g2, c2, m2⟩ := ihur σ hg.2.2.1 htur h2
      refine ⟨geoOK_remove_empty_subtrees ⟨hg.1, hg.2.1, g2, hg.2.2.2.1, hg.2.2.2.2⟩,
        containsPt_quadrant_sub (Or.inr rfl) (Or.inr rfl) (hbur ▸ c2), ?_⟩
      calc (j2 ::ₘ (↑(get_all_points (remove_empty_subtrees (node b c ps ul ur' ll lr))) :
            Multiset Nat))
          ≤ j2 ::ₘ ↑(get_all_points (node b c ps ul ur' ll lr)) :=
            Multiset.cons_le_cons _ (ms_remove_empty_subtrees _)
        _ = j2 ::ₘ ((↑ps : Multiset Nat) + ↑(get_all_points ul) + ↑(get_all_points ur') +
            ↑(get_all_points ll) + ↑(get_all_points lr)) := by
            simp only [all_node, ← Multiset.coe_add]
        _ ≤ (↑ps : Multiset Nat) + ↑(get_all_points ul) + ↑(get_all_points ur) +
            ↑(get_all_points ll) + ↑(get_all_points lr) := ms_shuf2 j2 _ _ _ _ m2
        _ = ↑(get_all_points (node b c ps ul ur ll lr)) := by
            simp only [all_node, ← Multiset.coe_add]
    case none =>
    have e2 := rfsl_none_unchanged ur h2
    rw [e2] at heq
    rcases h3 : remove_from_subtree_leaf ll with ⟨o3, ll'⟩
    rw [h3] at heq
    rcases o3 with _ | j3
    case some =>
      simp only [Prod.mk.injEq, Option.some.injEq] at heq
      obtain ⟨rfl, rfl⟩ := heq
      obtain ⟨g3, c3, m3⟩ := ihll σ hg.2.2.2.1 htll h3
      refine ⟨geoOK_remove_empty_subtrees ⟨hg.1, hg.2.1, hg.2.2.1, g3, hg.2.2.2.2⟩,
        containsPt_quadrant_sub (Or.inl rfl) (Or.inl rfl) (hbll ▸ c3), ?_⟩
      calc (j3 ::ₘ (↑(get_all_points (remove_empty_subtrees (node b c ps ul ur ll' lr))) :
            Multiset Nat))
          ≤ j3 ::ₘ ↑(get_all_points (node b c ps ul ur ll' lr)) :=
            Multiset.cons_le_cons _ (ms_remove_empty_subtrees _)
        _ = j3 ::ₘ ((↑ps : Multiset Nat) + ↑(get_all_points ul) + ↑(get_all_points ur) +
            ↑(get_all_points ll') + ↑(get_all_points lr)) := by
            simp only [all_node, ← Multiset.coe_add]
        _ ≤ (↑ps : Multiset Nat) + ↑(get_all_points ul) + ↑(get_all_points ur) +
            ↑(get_all_points ll) + ↑(get_all_points lr) := ms_shuf3 j3 _ _ _ _ m3
        _ = ↑(get_all_points (node b c ps ul ur ll lr)) := by
            simp only [all_node, ← Multiset.coe_add]
    case none =>
    have e3 := rfsl_none_unchanged ll h3
    rw [e3] at heq
    rcases h4 : remove_from_subtree_leaf lr with ⟨o4, lr'⟩
    rw [h4] at heq
    rcases o4 with _ | j4
    case some =>
      simp only [Prod.mk.injEq, Option.some.injEq] at heq
      obtain ⟨rfl, rfl⟩ := heq
      obtain ⟨g4, c4, m4⟩ := ihlr σ hg.2.2.2.2 htlr h4
      refine ⟨geoOK_remove_empty_subtrees ⟨hg.1, hg.2.1, hg.2.2.1, hg.2.2.2.1, g4⟩,
        containsPt_quadrant_sub (Or.inr rfl) (Or.inl rfl) (hblr ▸ c4), ?_⟩
      calc (j4 ::ₘ (↑(get_all_points (remove_empty_subtrees (node b c ps ul ur ll lr'))) :
            Multiset Nat))
          ≤ j4 ::ₘ ↑(get_all_points (node b c ps ul ur ll lr')) :=
            Multiset.cons_le_cons _ (ms_remove_empty_subtrees _)
        _ = j4 ::ₘ ((↑ps : Multiset Nat) + ↑(get_all_points ul) + ↑(get_all_points ur) +
            ↑(get_all_points ll) + ↑(get_all_points lr')) := by
            simp only [all_node, ← Multiset.coe_add]
        _ ≤ (↑ps : Multiset Nat) + ↑(get_all_points ul) + ↑(get_all_points ur) +
            ↑(get_all_points ll) + ↑(get_all_points lr) := ms_shuf4 j4 _ _ _ _ m4
        _ = ↑(get_all_points (node b c ps ul ur ll lr)) := by
            simp only [all_node, ← Multiset.coe_add]
    case none =>
      simp at heq

theorem ms_all_erase (b : AABB) (c : Nat) (ps : List Nat)
    (ul ur ll lr : PointQuadTree) {i : Nat} (hm : i ∈ ps) :
    (↑(get_all_points (node b c (ps.erase i) ul ur ll lr)) : Multiset Nat) =
      (↑(get_all_points (node b c ps ul ur ll lr)) : Multiset Nat).erase i := by
  have m0 : i ∈ (↑ps : Multiset Nat) := Multiset.mem_coe.2 hm
  have m1 : i ∈ (↑ps : Multiset Nat) + ↑(get_all_points ul) :=
    Multiset.mem_add.2 (Or.inl m0)
  have m2 : i ∈ (↑ps : Multiset Nat) + ↑(get_all_points ul) + ↑(get_all_points ur) :=
    Multiset.mem_add.2 (Or.inl m1)
  have m3 : i ∈ (↑ps : Multiset Nat) + ↑(get_all_points ul) + ↑(get_all_points ur) +
      ↑(get_all_points ll) := Multiset.mem_add.2 (Or.inl m2)
  simp only [all_node, ← Multiset.coe_add]
  rw [Multiset.erase_add_left_pos _ m3, Multiset.erase_add_left_pos _ m2,
    Multiset.erase_add_left_pos _ m1, Multiset.erase_add_left_pos _ m0,
    Multiset.coe_erase]

/-- `_remove_from_self` under the geometric invariant: the result holds a
sub-multiset of the original contents minus one occurrence of the removed
element, and stays geometrically sound. -/
theorem remove_from_self_master {σ : Store} (t : PointQuadTree) (i : Nat)
    (hg : geoOK σ t) (htl : tiled t) (hm : i ∈ points t) :
    geoOK σ (remove_from_self t i) ∧
      (↑(get_all_points (remove_from_self t i)) : Multiset Nat) ≤
        (↑(get_all_points t) : Multiset Nat).erase i := by
  cases t with
  | leaf b c ps =>
    have hres : remove_from_self (leaf b c ps) i = leaf b c (ps.erase i) := rfl
    rw [hres]
    refine ⟨fun j hj => hg j (List.mem_of_mem_erase hj), ?_⟩
    rw [all_leaf, all_leaf, Multiset.coe_erase]
  | node b c ps ul ur ll lr =>
    simp only [points_node] at hm
    have hres : remove_from_self (node b c ps ul ur ll lr) i =
        bubble_up_point (node b c (ps.erase i) ul ur ll lr) := rfl
    rw [hres]
    have hg1 : geoOK σ (node b c (ps.erase i) ul ur ll lr) :=
      ⟨fun j hj => hg.1 j (List.mem_of_mem_erase hj), hg.2.1, hg.2.2.1,
        hg.2.2.2.1, hg.2.2.2.2⟩
    have htl1 : tiled (node b c (ps.erase i) ul ur ll lr) := htl
    unfold bubble_up_point
    rcases hrl : remove_from_leaf (node b c (ps.erase i) ul ur ll lr) with ⟨o, t2⟩
    rw [remove_from_leaf] at hrl
    rcases o with _ | j
    case none =>
      have e := rfsl_none_unchanged _ hrl
      subst e
      exact ⟨hg1, le_of_eq (ms_all_erase b c ps ul ur ll lr hm)⟩
    case some =>
      obtain ⟨g2, c2, m2⟩ := rfsl_some _ σ hg1 htl1 hrl
      have hpts : points t2 = ps.erase i := by
        have := remove_from_subtree_leaf_points_node b c (ps.erase i) ul ur ll lr
        rw [hrl] at this
        exact this
      have hbd : boundary t2 = b := by
        have := (remove_from_subtree_leaf_meta (node b c (ps.erase i) ul ur ll lr)).1
        rw [hrl] at this
        exact this
      constructor
      · refine geoOK_withPoints g2 ?_
        intro x hx
        rcases List.mem_append.1 hx with hx | hx
        · exact geoOK_points g2 x hx
        · have : x = j := by simpa using hx
          subst this
          rw [hbd]
          exact c2
      · have hall : get_all_points (withPoints t2 (points t2 ++ [j])) =
            (points t2 ++ [j]) ++ subtree_points t2 := by
          rw [all_eq_points_append (withPoints t2 (points t2 ++ [j])),
            points_withPoints, subtree_points_withPoints]
        rw [hall]
        have hperm : List.Perm ((points t2 ++ [j]) ++ subtree_points t2)
            (j :: (points t2 ++ subtree_points t2)) := by
          rw [List.append_assoc]
          exact List.perm_middle
        have : (↑((points t2 ++ [j]) ++ subtree_points t2) : Multiset Nat) =
            j ::ₘ ↑(get_all_points t2) := by
          rw [Multiset.coe_eq_coe.2 hperm, ← Multiset.cons_coe,
            all_eq_points_append t2]
        rw [this]
        exact m2.trans (le_of_eq (ms_all_erase b c ps ul ur ll lr hm))

theorem ms_erase_at2 {i : Nat} {B : Multiset Nat} (A C D E : Multiset Nat) (h : i ∈ B) :
    (A + B + C + D + E).erase i = A + B.erase i + C + D + E := by
  have m1 : i ∈ A + B := Multiset.mem_add.2 (Or.inr h)
  have m2 : i ∈ A + B + C := Multiset.mem_add.2 (Or.inl m1)
  have m3 : i ∈ A + B + C + D := Multiset.mem_add.2 (Or.inl m2)
  rw [Multiset.erase_add_left_pos E m3, Multiset.erase_add_left_pos D m2,
    Multiset.erase_add_left_pos C m1, Multiset.erase_add_right_pos A h]

theorem ms_erase_at3 {i : Nat} {C : Multiset Nat} (A B D E : Multiset Nat) (h : i ∈ C) :
    (A + B + C + D + E).erase i = A + B + C.erase i + D + E := by
  have m2 : i ∈ A + B + C := Multiset.mem_add.2 (Or.inr h)
  have m3 : i ∈ A + B + C + D := Multiset.mem_add.2 (Or.inl m2)
  rw [Multiset.erase_add_left_pos E m3, Multiset.erase_add_left_pos D m2,
    Multiset.erase_add_right_pos (A + B) h]

theorem ms_erase_at4 {i : Nat} {D : Multiset Nat} (A B C E : Multiset Nat) (h : i ∈ D) :
    (A + B + C + D + E).erase i = A + B + C + D.erase i + E := by
  have m3 : i ∈ A + B + C + D := Multiset.mem_add.2 (Or.inr h)
  rw [Multiset.erase_add_left_pos E m3, Multiset.erase_add_right_pos (A + B + C) h]

theorem ms_erase_at5 {i : Nat} {E : Multiset Nat} (A B C D : Multiset Nat) (h : i ∈ E) :
    (A + B + C + D + E).erase i = A + B + C + D + E.erase i :=
  Multiset.erase_add_right_pos (A + B + C + D) h

/-- `remove` under the geometric invariant: a successful removal leaves a
sub-multiset of the original contents minus one occurrence of the element,
and geometric soundness is preserved in all cases. -/
theorem remove_master (t : PointQuadTree) :
    ∀ (σ : Store) (i : Nat), geoOK σ t → tiled t →
      geoOK σ (remove σ t i).1 ∧
      ((remove σ t i).2 = true →
        (↑(get_all_points (remove σ t i).1) : Multiset Nat) ≤
          (↑(get_all_points t) : Multiset Nat).erase i ∧ i ∈ get_all_points t) := by
  induction t with
  | leaf b c ps =>
    intro σ i hg htl
    by_cases hc : containsPt b σ i
    · by_cases hm : i ∈ ps
      · have hmaster := remove_from_self_master (leaf b c ps) i hg htl (by simpa using hm)
        simp only [remove, hc, hm, not_true_eq_false, if_false, if_true]
        exact ⟨hmaster.1, fun _ => ⟨hmaster.2, mem_points_mem_all (by simpa using hm)⟩⟩
      · simp only [remove, hc, hm, not_true_eq_false, if_false, if_true]
        exact ⟨hg, by simp⟩
    · simp only [remove, hc, not_false_eq_true, if_true]
      exact ⟨hg, by simp⟩
  | node b c ps ul ur ll lr ihul ihur ihll ihlr =>
    intro σ i hg htl
    obtain ⟨hbul, hcul, hbur, hcur, hbll, hcll, hblr, hclr, htul, htur, htll, htlr⟩ := htl
    by_cases hc : containsPt b σ i
    · by_cases hm : i ∈ ps
      · have hmaster := remove_from_self_master (node b c ps ul ur ll lr) i hg
          ⟨hbul, hcul, hbur, hcur, hbll, hcll, hblr, hclr, htul, htur, htll, htlr⟩
          (by simpa using hm)
        simp only [remove, hc, hm, not_true_eq_false, if_false, if_true]
        exact ⟨hmaster.1, fun _ => ⟨hmaster.2, mem_points_mem_all (by simpa using hm)⟩⟩
      · rcases h1 : remove σ ul i with ⟨ul', b1⟩
        have iul := ihul σ i hg.2.1 htul
        rw [h1] at iul
        rcases b1 with _ | _
        next =>
          have e1 := remove_false_unchanged ul σ i (by rw [h1])
          rw [h1] at e1; dsimp only at e1; have e1s := e1.symm; subst e1s
          rcases h2 : remove σ ur i with ⟨ur', b2⟩
          have iur := ihur σ i hg.2.2.1 htur
          rw [h2] at iur
          rcases b2 with _ | _
          next =>
            have e2 := remove_false_unchanged ur σ i (by rw [h2])
            rw [h2] at e2; dsimp only at e2; have e2s := e2.symm; subst e2s
            rcases h3 : remove σ ll i with ⟨ll', b3⟩
            have ill := ihll σ i hg.2.2.2.1 htll
            rw [h3] at ill
            rcases b3 with _ | _
            next =>
              have e3 := remove_false_unchanged ll σ i (by rw [h3])
              rw [h3] at e3; dsimp only at e3; have e3s := e3.symm; subst e3s
              rcases h4 : remove σ lr i with ⟨lr', b4⟩
              have ilr := ihlr σ i hg.2.2.2.2 htlr
              rw [h4] at ilr
              rcases b4 with _ | _
              next =>
                have e4 := remove_false_unchanged lr σ i (by rw [h4])
                rw [h4] at e4; dsimp only at e4; have e4s := e4.symm; subst e4s
                simp only [remove, hc, hm, h1, h2, h3, h4, not_true_eq_false,
                  if_false, if_true]
                exact ⟨⟨hg.1, hg.2.1, hg.2.2.1, hg.2.2.2.1, hg.2.2.2.2⟩, by simp⟩
              next =>
                obtain ⟨mle, hmem⟩ := ilr.2 rfl
                simp only [remove, hc, hm, h1, h2, h3, h4, not_true_eq_false,
                  if_false, if_true]
                refine ⟨geoOK_remove_empty_subtrees
                  ⟨hg.1, hg.2.1, hg.2.2.1, hg.2.2.2.1, ilr.1⟩, fun _ => ⟨?_, ?_⟩⟩
                · calc (↑(get_all_points (remove_empty_subtrees
                        (node b c ps ul ur ll lr'))) : Multiset Nat)
                      ≤ ↑(get_all_points (node b c ps ul ur ll lr')) :=
                        ms_remove_empty_subtrees _
                    _ ≤ (↑(get_all_points (node b c ps ul ur ll lr)) :
                        Multiset Nat).erase i := by
                        simp only [all_node, ← Multiset.coe_add]
                        rw [ms_erase_at5 _ _ _ _ (Multiset.mem_coe.2 hmem)]
                        exact add_le_add (le_refl _) mle
                · simp only [all_node, List.mem_append]
                  exact Or.inr hmem
            next =>
              obtain ⟨mle, hmem⟩ := ill.2 rfl
              simp only [remove, hc, hm, h1, h2, h3, not_true_eq_false,
                if_false, if_true]
              refine ⟨geoOK_remove_empty_subtrees
                ⟨hg.1, hg.2.1, hg.2.2.1, ill.1, hg.2.2.2.2⟩, fun _ => ⟨?_, ?_⟩⟩
              · calc (↑(get_all_points (remove_empty_subtrees
                      (node b c ps ul ur ll' lr))) : Multiset Nat)
                    ≤ ↑(get_all_points (node b c ps ul ur ll' lr)) :=
                      ms_remove_empty_subtrees _
                  _ ≤ (↑(get_all_points (node b c ps ul ur ll lr)) :
                      Multiset Nat).erase i := by
                      simp only [all_node, ← Multiset.coe_add]
                      rw [ms_erase_at4 _ _ _ _ (Multiset.mem_coe.2 hmem)]
                      exact add_le_add (add_le_add (le_refl _) mle) (le_refl _)
              · simp only [all_node, List.mem_append]
                exact Or.inl (Or.inr hmem)
          next =>
            obtain ⟨mle, hmem⟩ := iur.2 rfl
            simp only [remove, hc, hm, h1, h2, not_true_eq_false, if_false, if_true]
            refine ⟨geoOK_remove_empty_subtrees
              ⟨hg.1, hg.2.1, iur.1, hg.2.2.2.1, hg.2.2.2.2⟩, fun _ => ⟨?_, ?_⟩⟩
            · calc (↑(get_all_points (remove_empty_subtrees
                    (node b c ps ul ur' ll lr))) : Multiset Nat)
                  ≤ ↑(get_all_points (node b c ps ul ur' ll lr)) :=
                    ms_remove_empty_subtrees _
                _ ≤ (↑(get_all_points (node b c ps ul ur ll lr)) :
                    Multiset Nat).erase i := by
                    simp only [all_node, ← Multiset.coe_add]
                    rw [ms_erase_at3 _ _ _ _ (Multiset.mem_coe.2 hmem)]
                    exact add_le_add (add_le_add (add_le_add (le_refl _) mle)
                      (le_refl _)) (le_refl _)
            · simp only [all_node, List.mem_append]
              exact Or.inl (Or.inl (Or.inr hmem))
        next =>
          obtain ⟨mle, hmem⟩ := iul.2 rfl
          simp only [remove, hc, hm, h1, not_true_eq_false, if_false, if_true]
          refine ⟨geoOK_remove_empty_subtrees
            ⟨hg.1, iul.1, hg.2.2.1, hg.2.2.2.1, hg.2.2.2.2⟩, fun _ => ⟨?_, ?_⟩⟩
          · calc (↑(get_all_points (remove_empty_subtrees
                  (node b c ps ul' ur ll lr))) : Multiset Nat)
                ≤ ↑(get_all_points (node b c ps ul' ur ll lr)) :=
                  ms_remove_empty_subtrees _
              _ ≤ (↑(get_all_points (node b c ps ul ur ll lr)) :
                  Multiset Nat).erase i := by
                  simp only [all_node, ← Multiset.coe_add]
                  rw [ms_erase_at2 _ _ _ _ (Multiset.mem_coe.2 hmem)]
                  exact add_le_add (add_le_add (add_le_add (add_le_add (le_refl _) mle)
                    (le_refl _)) (le_refl _)) (le_refl _)
          · simp only [all_node, List.mem_append]
            exact Or.inl (Or.inl (Or.inl (Or.inr hmem)))
    · simp only [remove, hc, not_false_eq_true, if_true]
      exact ⟨⟨hg.1, hg.2.1, hg.2.2.1, hg.2.2.2.1, hg.2.2.2.2⟩, by simp⟩

theorem ms_ins2 {i : Nat} {B B' : Multiset Nat} (A C D E : Multiset Nat)
    (h : B' ≤ i ::ₘ B) : A + B' + C + D + E ≤ i ::ₘ (A + B + C + D + E) := by
  have he : i ::ₘ (A + B + C + D + E) = A + (i ::ₘ B) + C + D + E := by
    simp [Multiset.cons_add, Multiset.add_cons]
  rw [he]
  exact add_le_add (add_le_add (add_le_add (add_le_add (le_refl _) h)
    (le_refl _)) (le_refl _)) (le_refl _)

theorem ms_ins3 {i : Nat} {C C' : Multiset Nat} (A B D E : Multiset Nat)
    (h : C' ≤ i ::ₘ C) : A + B + C' + D + E ≤ i ::ₘ (A + B + C + D + E) := by
  have he : i ::ₘ (A + B + C + D + E) = A + B + (i ::ₘ C) + D + E := by
    simp [Multiset.cons_add, Multiset.add_cons]
  rw [he]
  exact add_le_add (add_le_add (add_le_add (le_refl _) h) (le_refl _)) (le_refl _)

theorem ms_ins4 {i : Nat} {D D' : Multiset Nat} (A B C E : Multiset Nat)
    (h : D' ≤ i ::ₘ D) : A + B + C + D' + E ≤ i ::ₘ (A + B + C + D + E) := by
  have he : i ::ₘ (A + B + C + D + E) = A + B + C + (i ::ₘ D) + E := by
    simp [Multiset.cons_add, Multiset.add_cons]
  rw [he]
  exact add_le_add (add_le_add (le_refl _) h) (le_refl _)

theorem ms_ins5 {i : Nat} {E E' : Multiset Nat} (A B C D : Multiset Nat)
    (h : E' ≤ i ::ₘ E) : A + B + C + D + E' ≤ i ::ₘ (A + B + C + D + E) := by
  have he : i ::ₘ (A + B + C + D + E) = A + B + C + D + (i ::ₘ E) := by
    simp [Multiset.cons_add, Multiset.add_cons]
  rw [he]
  exact add_le_add (le_refl _) h

/-- `insert` under the geometric invariant: the result stores at most the
original contents plus the inserted element, within boundaries. -/
theorem insert_master (t : PointQuadTree) :
    ∀ (σ : Store) (i : Nat), geoOK σ t →
      geoOK σ (insert σ t i).1 ∧
      (↑(get_all_points (insert σ t i).1) : Multiset Nat) ≤
        i ::ₘ ↑(get_all_points t) := by
  induction t with
  | leaf b c ps =>
    intro σ i hg
    by_cases hc : containsPt b σ i
    · by_cases hlen : ps.length < c
      · simp only [insert, hc, hlen, not_true_eq_false, if_false, if_true]
        constructor
        · intro j hj
          rcases List.mem_append.1 hj with hj | hj
          · exact hg j hj
          · have : j = i := by simpa using hj
            exact this ▸ hc
        · rw [all_leaf, all_leaf]
          exact le_of_eq (by
            rw [Multiset.coe_eq_coe.2 (List.perm_append_singleton i ps),
              Multiset.cons_coe])
      · simp only [insert, hc, hlen, not_true_eq_false, if_false, if_true]
        split_ifs with q1 q2 q3 q4
        · refine ⟨⟨hg, fun j hj => by
              have : j = i := by simpa using hj
              exact this ▸ q1.1,
            fun j hj => absurd hj (List.not_mem_nil j),
            fun j hj => absurd hj (List.not_mem_nil j),
            fun j hj => absurd hj (List.not_mem_nil j)⟩, ?_⟩
          simp only [all_node, all_leaf, freshKid, List.append_nil]
          exact le_of_eq (by
            rw [Multiset.coe_eq_coe.2 (List.perm_append_singleton i ps),
              Multiset.cons_coe])
        · refine ⟨⟨hg, fun j hj => absurd hj (List.not_mem_nil j),
            fun j hj => by
              have : j = i := by simpa using hj
              exact this ▸ q2.1,
            fun j hj => absurd hj (List.not_mem_nil j),
            fun j hj => absurd hj (List.not_mem_nil j)⟩, ?_⟩
          simp only [all_node, all_leaf, freshKid, List.append_nil]
          exact le_of_eq (by
            rw [Multiset.coe_eq_coe.2 (List.perm_append_singleton i ps),
              Multiset.cons_coe])
        · refine ⟨⟨hg, fun j hj => absurd hj (List.not_mem_nil j),
            fun j hj => absurd hj (List.not_mem_nil j),
            fun j hj => by
              have : j = i := by simpa using hj
              exact this ▸ q3.1,
            fun j hj => absurd hj (List.not_mem_nil j)⟩, ?_⟩
          simp only [all_node, all_leaf, freshKid, List.append_nil]
          exact le_of_eq (by
            rw [Multiset.coe_eq_coe.2 (List.perm_append_singleton i ps),
              Multiset.cons_coe])
        · refine ⟨⟨hg, fun j hj => absurd hj (List.not_mem_nil j),
            fun j hj => absurd hj (List.not_mem_nil j),
            fun j hj => absurd hj (List.not_mem_nil j),
            fun j hj => by
              have : j = i := by simpa using hj
              exact this ▸ q4.1⟩, ?_⟩
          simp only [all_node, all_leaf, freshKid, List.append_nil]
          exact le_of_eq (by
            rw [Multiset.coe_eq_coe.2 (List.perm_append_singleton i ps),
              Multiset.cons_coe])
        · refine ⟨⟨hg, fun j hj => absurd hj (List.not_mem_nil j),
            fun j hj => absurd hj (List.not_mem_nil j),
            fun j hj => absurd hj (List.not_mem_nil j),
            fun j hj => absurd hj (List.not_mem_nil j)⟩, ?_⟩
          simp only [all_node, all_leaf, freshKid, List.append_nil]
          exact Multiset.le_cons_self _ _
    · rw [insert_not_contains (show ¬ containsPt (boundary (leaf b c ps)) σ i from hc)]
      exact ⟨hg, Multiset.le_cons_self _ _⟩
  | node b c ps ul ur ll lr ihul ihur ihll ihlr =>
    intro σ i hg
    by_cases hc : containsPt b σ i
    · by_cases hlen : ps.length < c
      · simp only [insert, hc, hlen, not_true_eq_false, if_false, if_true]
        constructor
        · refine ⟨?_, hg.2.1, hg.2.2.1, hg.2.2.2.1, hg.2.2.2.2⟩
          intro j hj
          rcases List.mem_append.1 hj with hj | hj
          · exact hg.1 j hj
          · have : j = i := by simpa using hj
            exact this ▸ hc
        · simp only [all_node, ← Multiset.coe_add, Multiset.coe_singleton,
            ← Multiset.singleton_add]
          exact le_of_eq (by abel)
      · rcases h1 : insert σ ul i with ⟨ul', r1⟩
        have iul := ihul σ i hg.2.1
        rw [h1] at iul
        have geo1 : geoOK σ (node b c ps ul' ur ll lr) :=
          ⟨hg.1, iul.1, hg.2.2.1, hg.2.2.2.1, hg.2.2.2.2⟩
        have ms1 : (↑(get_all_points (node b c ps ul' ur ll lr)) : Multiset Nat) ≤
            i ::ₘ ↑(get_all_points (node b c ps ul ur ll lr)) := by
          simp only [all_node, ← Multiset.coe_add]
          exact ms_ins2 _ _ _ _ iul.2
        rcases r1 with _ | _ | _
        · constructor
          · simpa [insert, hc, hlen, h1] using geo1
          · have := ms1
            simpa [insert, hc, hlen, h1] using this
        · have e1 := insert_rejected (by rw [h1])
          rw [h1] at e1; have e1s := e1.1.symm; dsimp only at e1s; subst e1s
          rcases h2 : insert σ ur i with ⟨ur', r2⟩
          have iur := ihur σ i hg.2.2.1
          rw [h2] at iur
          have geo2 : geoOK σ (node b c ps ul ur' ll lr) :=
            ⟨hg.1, hg.2.1, iur.1, hg.2.2.2.1, hg.2.2.2.2⟩
          have ms2 : (↑(get_all_points (node b c ps ul ur' ll lr)) : Multiset Nat) ≤
              i ::ₘ ↑(get_all_points (node b c ps ul ur ll lr)) := by
            simp only [all_node, ← Multiset.coe_add]
            exact ms_ins3 _ _ _ _ iur.2
          rcases r2 with _ | _ | _
          · constructor
            · simpa [insert, hc, hlen, h1, h2] using geo2
            · have := ms2
              simpa [insert, hc, hlen, h1, h2] using this
          · have e2 := insert_rejected (by rw [h2])
            rw [h2] at e2; have e2s := e2.1.symm; dsimp only at e2s; subst e2s
            rcases h3 : insert σ ll i with ⟨ll', r3⟩
            have ill := ihll σ i hg.2.2.2.1
            rw [h3] at ill
            have geo3 : geoOK σ (node b c ps ul ur ll' lr) :=
              ⟨hg.1, hg.2.1, hg.2.2.1, ill.1, hg.2.2.2.2⟩
            have ms3 : (↑(get_all_points (node b c ps ul ur ll' lr)) : Multiset Nat) ≤
                i ::ₘ ↑(get_all_points (node b c ps ul ur ll lr)) := by
              simp only [all_node, ← Multiset.coe_add]
              exact ms_ins4 _ _ _ _ ill.2
            rcases r3 with _ | _ | _
            · constructor
              · simpa [insert, hc, hlen, h1, h2, h3] using geo3
              · have := ms3
                simpa [insert, hc, hlen, h1, h2, h3] using this
            · have e3 := insert_rejected (by rw [h3])
              rw [h3] at e3; have e3s := e3.1.symm; dsimp only at e3s; subst e3s
              rcases h4 : insert σ lr i with ⟨lr', r4⟩
              have ilr := ihlr σ i hg.2.2.2.2
              rw [h4] at ilr
              have geo4 : geoOK σ (node b c ps ul ur ll lr') :=
                ⟨hg.1, hg.2.1, hg.2.2.1, hg.2.2.2.1, ilr.1⟩
              have ms4 : (↑(get_all_points (node b c ps ul ur ll lr')) : Multiset Nat) ≤
                  i ::ₘ ↑(get_all_points (node b c ps ul ur ll lr)) := by
                simp only [all_node, ← Multiset.coe_add]
                exact ms_ins5 _ _ _ _ ilr.2
              rcases r4 with _ | _ | _
              · constructor
                · simpa [insert, hc, hlen, h1, h2, h3, h4] using geo4
                · have := ms4
                  simpa [insert, hc, hlen, h1, h2, h3, h4] using this
              · constructor
                · simpa [insert, hc, hlen, h1, h2, h3, h4] using geo4
                · have := ms4
                  simpa [insert, hc, hlen, h1, h2, h3, h4] using this
              · constructor
                · simpa [insert, hc, hlen, h1, h2, h3, h4] using geo4
                · have := ms4
                  simpa [insert, hc, hlen, h1, h2, h3, h4] using this
            · constructor
              · simpa [insert, hc, hlen, h1, h2, h3] using geo3
              · have := ms3
                simpa [insert, hc, hlen, h1, h2, h3] using this
          · constructor
            · simpa [insert, hc, hlen, h1, h2] using geo2
            · have := ms2
              simpa [insert, hc, hlen, h1, h2] using this
        · constructor
          · simpa [insert, hc, hlen, h1] using geo1
          · have := ms1
            simpa [insert, hc, hlen, h1] using this
    · rw [insert_not_contains
        (show ¬ containsPt (boundary (node b c ps ul ur ll lr)) σ i from hc)]
      exact ⟨⟨hg.1, hg.2.1, hg.2.2.1, hg.2.2.2.1, hg.2.2.2.2⟩, Multiset.le_cons_self _ _⟩

/-- Element occurrence exclusion in a duplicate-free node: an element found
in one part of the node is in no other part. -/
theorem nodup_node_excl {b : AABB} {c : Nat} {ps : List Nat}
    {ul ur ll lr : PointQuadTree} {i : Nat}
    (h : (get_all_points (node b c ps ul ur ll lr)).Nodup) :
    (i ∈ get_all_points ul → i ∉ ps ∧ i ∉ get_all_points ur ∧
      i ∉ get_all_points ll ∧ i ∉ get_all_points lr) ∧
    (i ∈ get_all_points ur → i ∉ ps ∧ i ∉ get_all_points ul ∧
      i ∉ get_all_points ll ∧ i ∉ get_all_points lr) ∧
    (i ∈ get_all_points ll → i ∉ ps ∧ i ∉ get_all_points ul ∧
      i ∉ get_all_points ur ∧ i ∉ get_all_points lr) ∧
    (i ∈ get_all_points lr → i ∉ ps ∧ i ∉ get_all_points ul ∧
      i ∉ get_all_points ur ∧ i ∉ get_all_points ll) ∧
    (i ∈ ps → i ∉ get_all_points ul ∧ i ∉ get_all_points ur ∧
      i ∉ get_all_points ll ∧ i ∉ get_all_points lr) := by
  rw [List.nodup_iff_count_le_one] at h
  have hc := h i
  simp only [all_node, List.count_append] at hc
  refine ⟨fun hm => ?_, fun hm => ?_, fun hm => ?_, fun hm => ?_, fun hm => ?_⟩ <;>
  · have h0 := List.count_pos_iff.2 hm
    refine ⟨fun hx => ?_, fun hx => ?_, fun hx => ?_, fun hx => ?_⟩ <;>
    · have h1 := List.count_pos_iff.2 hx
      omega

/-- Sub-lists of a duplicate-free node's contents are duplicate-free. -/
theorem nodup_node_sub {b : AABB} {c : Nat} {ps : List Nat}
    {ul ur ll lr : PointQuadTree}
    (h : (get_all_points (node b c ps ul ur ll lr)).Nodup) :
    (get_all_points ul).Nodup ∧ (get_all_points ur).Nodup ∧
    (get_all_points ll).Nodup ∧ (get_all_points lr).Nodup := by
  rw [List.nodup_iff_count_le_one] at h
  refine ⟨?_, ?_, ?_, ?_⟩ <;>
  · rw [List.nodup_iff_count_le_one]
    intro a
    have hc := h a
    simp only [all_node, List.count_append] at hc
    omega

/-- If a list is contained (as a multiset) in another list minus one copy of
`i`, and the larger list has no duplicates, then `i` does not occur in the
smaller list. -/
theorem not_mem_of_ms_le_erase {l l' : List Nat} {i : Nat} (hnd : l.Nodup)
    (hle : (↑l' : Multiset Nat) ≤ (↑l : Multiset Nat).erase i) : i ∉ l' := by
  intro hmem
  have h1 : 0 < l'.count i := List.count_pos_iff.2 hmem
  have h2 := Multiset.count_le_of_le i hle
  rw [Multiset.count_erase_self, Multiset.coe_count, Multiset.coe_count] at h2
  have h3 : l.count i ≤ 1 := List.nodup_iff_count_le_one.1 hnd i
  omega

/-- An in-place coordinate update of a resident of this node keeps the tree
geometrically sound, provided the node's boundary contains the new
coordinates and the element is stored nowhere else. -/
theorem geoOK_upd_self {σ : Store} {t : PointQuadTree} {i : Nat} {dx dy : ℚ}
    (hg : geoOK σ t) (hnd : (get_all_points t).Nodup) (hm : i ∈ points t)
    (hok : (boundary t).contains ((σ i).1 + dx) ((σ i).2 + dy)) :
    geoOK (updStore σ i dx dy) t := by
  cases t with
  | leaf b c ps =>
    intro j hj
    rcases eq_or_ne j i with rfl | hne
    · show AABB.contains b (updStore σ j dx dy j).1 (updStore σ j dx dy j).2
      simp only [updStore, if_pos rfl]
      exact hok
    · exact (containsPt_upd_ne hne).2 (hg j hj)
  | node b c ps ul ur ll lr =>
    have hexcl := (@nodup_node_excl b c ps ul ur ll lr i hnd).2.2.2.2 (by simpa using hm)
    refine ⟨?_, geoOK_upd_not_mem ul hg.2.1 hexcl.1,
      geoOK_upd_not_mem ur hg.2.2.1 hexcl.2.1,
      geoOK_upd_not_mem ll hg.2.2.2.1 hexcl.2.2.1,
      geoOK_upd_not_mem lr hg.2.2.2.2 hexcl.2.2.2⟩
    intro j hj
    rcases eq_or_ne j i with rfl | hne
    · show AABB.contains b (updStore σ j dx dy j).1 (updStore σ j dx dy j).2
      simp only [updStore, if_pos rfl]
      exact hok
    · exact (containsPt_upd_ne hne).2 (hg.1 j hj)

/-- `_translate_point_in_self` under the invariants: the result is
geometrically sound for the updated store, stores no more than before, and
on the `removed` path the element is gone. -/
theorem translate_in_self_master (t : PointQuadTree) (σ : Store) (i : Nat)
    (dx dy : ℚ) (hg : geoOK σ t) (htl : tiled t)
    (hnd : (get_all_points t).Nodup) (hm : i ∈ points t)
    (hc : containsPt (boundary t) σ i) :
    geoOK (translate_in_self σ t i dx dy).2.2 (translate_in_self σ t i dx dy).2.1 ∧
    (↑(get_all_points (translate_in_self σ t i dx dy).2.1) : Multiset Nat) ≤
      ↑(get_all_points t) ∧
    ((translate_in_self σ t i dx dy).2.2 = updStore σ i dx dy ∧
      i ∈ get_all_points t) ∧
    ((translate_in_self σ t i dx dy).1 = .removed →
      (↑(get_all_points (translate_in_self σ t i dx dy).2.1) : Multiset Nat) ≤
        (↑(get_all_points t) : Multiset Nat).erase i) := by
  unfold translate_in_self
  split_ifs with hnew
  · exact ⟨geoOK_upd_self hg hnd hm hnew, le_refl _,
      ⟨rfl, mem_points_mem_all hm⟩, (by intro h; cases h)⟩
  · have hrt : remove σ t i = ((remove σ t i).1, true) := by
      cases t with
      | leaf b c ps =>
        simp only [boundary_leaf] at hc
        simp only [points_leaf] at hm
        simp [remove, hc, hm]
      | node b c ps ul ur ll lr =>
        simp only [boundary_node] at hc
        simp only [points_node] at hm
        simp [remove, hc, hm]
    have hmaster := remove_master t σ i hg htl
    have htrue : (remove σ t i).2 = true := by rw [hrt]
    obtain ⟨mle, hmem⟩ := hmaster.2 htrue
    have g2 : geoOK σ (remove_empty_subtrees (remove σ t i).1) :=
      geoOK_remove_empty_subtrees hmaster.1
    have m2 : (↑(get_all_points (remove_empty_subtrees (remove σ t i).1)) :
        Multiset Nat) ≤ (↑(get_all_points t) : Multiset Nat).erase i :=
      (ms_remove_empty_subtrees _).trans mle
    have hni : i ∉ get_all_points (remove_empty_subtrees (remove σ t i).1) :=
      not_mem_of_ms_le_erase hnd m2
    exact ⟨geoOK_upd_not_mem _ g2 hni, m2.trans (Multiset.erase_le _ _),
      ⟨rfl, hmem⟩, fun _ => m2⟩

/-- `remove` never grows the stored multiset. -/
theorem remove_ms_le {σ : Store} (t : PointQuadTree) (i : Nat)
    (hg : geoOK σ t) (htl : tiled t) :
    (↑(get_all_points (remove σ t i).1) : Multiset Nat) ≤ ↑(get_all_points t) := by
  rcases hb : (remove σ t i).2 with _ | _
  · rw [remove_false_unchanged t σ i hb]
  · exact (((remove_master t σ i hg htl).2 hb).1).trans (Multiset.erase_le _ _)

/-- `translate_point` under the invariants: the resulting store/tree pair is
geometrically sound, the contents never grow, the store is only ever updated
at the translated element (and only when it was found), and a `removed`
outcome leaves the tree without the element. -/
theorem translate_master (t : PointQuadTree) :
    ∀ (σ : Store) (i : Nat) (dx dy : ℚ),
      geoOK σ t → tiled t → (get_all_points t).Nodup →
      geoOK (translate_point σ t i dx dy).2.2 (translate_point σ t i dx dy).2.1 ∧
      (↑(get_all_points (translate_point σ t i dx dy).2.1) : Multiset Nat) ≤
        ↑(get_all_points t) ∧
      (((translate_point σ t i dx dy).1 = .translated ∨
          (translate_point σ t i dx dy).1 = .removed) →
        (translate_point σ t i dx dy).2.2 = updStore σ i dx dy ∧
          i ∈ get_all_points t) ∧
      ((translate_point σ t i dx dy).1 = .removed →
        (↑(get_all_points (translate_point σ t i dx dy).2.1) : Multiset Nat) ≤
          (↑(get_all_points t) : Multiset Nat).erase i) := by
  induction t with
  | leaf b c ps =>
    intro σ i dx dy hg htl hnd
    by_cases hc : containsPt b σ i
    · by_cases hm : i ∈ ps
      · have hres : translate_point σ (leaf b c ps) i dx dy =
            translate_in_self σ (leaf b c ps) i dx dy := by
          simp [translate_point, hc, hm]
        rw [hres]
        have H := translate_in_self_master (leaf b c ps) σ i dx dy hg htl hnd
          (by simpa using hm) (by simpa using hc)
        exact ⟨H.1, H.2.1, fun _ => H.2.2.1, H.2.2.2⟩
      · have hres : translate_point σ (leaf b c ps) i dx dy =
            (.not_in_tree, leaf b c ps, σ) := by simp [translate_point, hc, hm]
        rw [hres]
        exact ⟨hg, le_refl _, (by intro h; rcases h with h | h <;> cases h),
          (by intro h; cases h)⟩
    · have hres : translate_point σ (leaf b c ps) i dx dy =
          (.out_of_bounds, leaf b c ps, σ) := by simp [translate_point, hc]
      rw [hres]
      exact ⟨hg, le_refl _, (by intro h; rcases h with h | h <;> cases h),
        (by intro h; cases h)⟩
  | node b c ps ul ur ll lr ihul ihur ihll ihlr =>
    intro σ i dx dy hg htl hnd
    obtain ⟨hbul, hcul, hbur, hcur, hbll, hcll, hblr, hclr, htul, htur, htll, htlr⟩ := htl
    have hndsub := nodup_node_sub hnd
    by_cases hc : containsPt b σ i
    · by_cases hm : i ∈ ps
      · have hres : translate_point σ (node b c ps ul ur ll lr) i dx dy =
            translate_in_self σ (node b c ps ul ur ll lr) i dx dy := by
          simp [translate_point, hc, hm]
        rw [hres]
        have H := translate_in_self_master (node b c ps ul ur ll lr) σ i dx dy hg
          ⟨hbul, hcul, hbur, hcur, hbll, hcll, hblr, hclr, htul, htur, htll, htlr⟩
          hnd (by simpa using hm) (by simpa using hc)
        exact ⟨H.1, H.2.1, fun _ => H.2.2.1, H.2.2.2⟩
      · rcases h1 : translate_point σ ul i dx dy with ⟨r1, ul', σ1⟩
        have IH1 := ihul σ i dx dy hg.2.1 htul hndsub.1
        rw [h1] at IH1
        obtain ⟨g1, m1, c1, e1⟩ := IH1
        rcases r1 with _ | _ | _ | _
        · -- result: translated
          obtain ⟨hσ1, hiul⟩ := c1 (Or.inl rfl)
          subst hσ1
          have hexcl := (@nodup_node_excl b c ps ul ur ll lr i hnd).1 hiul
          have hres : translate_point σ (node b c ps ul ur ll lr) i dx dy =
              (.translated, node b c ps ul' ur ll lr, updStore σ i dx dy) := by
            simp [translate_point, hc, hm, h1]
          rw [hres]
          refine ⟨⟨fun j hj => (containsPt_upd_ne
              (fun he => absurd hj (by rw [he]; exact hexcl.1))).2 (hg.1 j hj),
            g1, geoOK_upd_not_mem ur hg.2.2.1 hexcl.2.1,
            geoOK_upd_not_mem ll hg.2.2.2.1 hexcl.2.2.1,
            geoOK_upd_not_mem lr hg.2.2.2.2 hexcl.2.2.2⟩, ?_,
            fun _ => ⟨rfl, by
              simp only [all_node, List.mem_append]
              exact Or.inl (Or.inl (Or.inl (Or.inr hiul)))⟩,
            (by intro h; cases h)⟩
          simp only [all_node, ← Multiset.coe_add]
          exact add_le_add (add_le_add (add_le_add (add_le_add (le_refl _) m1)
            (le_refl _)) (le_refl _)) (le_refl _)
        · -- result: out_of_bounds, try the next subtree
          obtain ⟨eul, eσ⟩ := translate_fail_unchanged ul σ i dx dy
            (by rw [h1]; exact Or.inl rfl)
          rw [h1] at eul eσ; dsimp only at eul eσ
          have eul' := eul.symm; subst eul'
          have eσ' := eσ.symm; subst eσ'
          rcases h2 : translate_point σ ur i dx dy with ⟨r2, ur', σ2⟩
          have IH2 := ihur σ i dx dy hg.2.2.1 htur hndsub.2.1
          rw [h2] at IH2
          obtain ⟨g2, m2, c2, e2⟩ := IH2
          rcases r2 with _ | _ | _ | _
          · -- result: translated
            obtain ⟨hσ2, hiur⟩ := c2 (Or.inl rfl)
            subst hσ2
            have hexcl := (@nodup_node_excl b c ps ul ur ll lr i hnd).2.1 hiur
            have hres : translate_point σ (node b c ps ul ur ll lr) i dx dy =
                (.translated, node b c ps ul ur' ll lr, updStore σ i dx dy) := by
              simp [translate_point, hc, hm, h1, h2]
            rw [hres]
            refine ⟨⟨fun j hj => (containsPt_upd_ne
                (fun he => absurd hj (by rw [he]; exact hexcl.1))).2 (hg.1 j hj),
              geoOK_upd_not_mem ul hg.2.1 hexcl.2.1, g2,
              geoOK_upd_not_mem ll hg.2.2.2.1 hexcl.2.2.1,
              geoOK_upd_not_mem lr hg.2.2.2.2 hexcl.2.2.2⟩, ?_,
              fun _ => ⟨rfl, by
                simp only [all_node, List.mem_append]
                exact Or.inl (Or.inl (Or.inr hiur))⟩,
              (by intro h; cases h)⟩
            simp only [all_node, ← Multiset.coe_add]
            exact add_le_add (add_le_add (add_le_add (le_refl _) m2)
              (le_refl _)) (le_refl _)
          · -- result: out_of_bounds, try the next subtree
            obtain ⟨eur, eσ2⟩ := translate_fail_unchanged ur σ i dx dy
              (by rw [h2]; exact Or.inl rfl)
            rw [h2] at eur eσ2; dsimp only at eur eσ2
            have eur' := eur.symm; subst eur'
            have eσ2' := eσ2.symm; subst eσ2'
            rcases h3 : translate_point σ ll i dx dy with ⟨r3, ll', σ3⟩
            have IH3 := ihll σ i dx dy hg.2.2.2.1 htll hndsub.2.2.1
            rw [h3] at IH3
            obtain ⟨g3, m3, c3, e3⟩ := IH3
            rcases r3 with _ | _ | _ | _
            · -- result: translated
              obtain ⟨hσ3, hill⟩ := c3 (Or.inl rfl)
              subst hσ3
              have hexcl := (@nodup_node_excl b c ps ul ur ll lr i hnd).2.2.1 hill
              have hres : translate_point σ (node b c ps ul ur ll lr) i dx dy =
                  (.translated, node b c ps ul ur ll' lr, updStore σ i dx dy) := by
                simp [translate_point, hc, hm, h1, h2, h3]
              rw [hres]
              refine ⟨⟨fun j hj => (containsPt_upd_ne
                  (fun he => absurd hj (by rw [he]; exact hexcl.1))).2 (hg.1 j hj),
                geoOK_upd_not_mem ul hg.2.1 hexcl.2.1,
                geoOK_upd_not_mem ur hg.2.2.1 hexcl.2.2.1, g3,
                geoOK_upd_not_mem lr hg.2.2.2.2 hexcl.2.2.2⟩, ?_,
                fun _ => ⟨rfl, by
                  simp only [all_node, List.mem_append]
                  exact Or.inl (Or.inr hill)⟩,
                (by intro h; cases h)⟩
              simp only [all_node, ← Multiset.coe_add]
              exact add_le_add (add_le_add (le_refl _) m3) (le_refl _)
            · -- result: out_of_bounds, try the next subtree
              obtain ⟨ell, eσ3⟩ := translate_fail_unchanged ll σ i dx dy
                (by rw [h3]; exact Or.inl rfl)
              rw [h3] at ell eσ3; dsimp only at ell eσ3
              have ell' := ell.symm; subst ell'
              have eσ3' := eσ3.symm; subst eσ3'
              rcases h4 : translate_point σ lr i dx dy with ⟨r4, lr', σ4⟩
              have IH4 := ihlr σ i dx dy hg.2.2.2.2 htlr hndsub.2.2.2
              rw [h4] at IH4
              obtain ⟨g4, m4, c4, e4⟩ := IH4
              rcases r4 with _ | _ | _ | _
              · -- result: translated
                obtain ⟨hσ4, hilr⟩ := c4 (Or.inl rfl)
                subst hσ4
                have hexcl := (@nodup_node_excl b c ps ul ur ll lr i hnd).2.2.2.1 hilr
                have hres : translate_point σ (node b c ps ul ur ll lr) i dx dy =
                    (.translated, node b c ps ul ur ll lr', updStore σ i dx dy) := by
                  simp [translate_point, hc, hm, h1, h2, h3, h4]
                rw [hres]
                refine ⟨⟨fun j hj => (containsPt_upd_ne
                    (fun he => absurd hj (by rw [he]; exact hexcl.1))).2 (hg.1 j hj),
                  geoOK_upd_not_mem ul hg.2.1 hexcl.2.1,
                  geoOK_upd_not_mem ur hg.2.2.1 hexcl.2.2.1,
                  geoOK_upd_not_mem ll hg.2.2.2.1 hexcl.2.2.2, g4⟩, ?_,
                  fun _ => ⟨rfl, by
                    simp only [all_node, List.mem_append]
                    exact Or.inr hilr⟩,
                  (by intro h; cases h)⟩
                simp only [all_node, ← Multiset.coe_add]
                exact add_le_add (le_refl _) m4
              · -- result: out_of_bounds, try the next subtree
                  obtain ⟨elr, eσ4⟩ := translate_fail_unchanged lr σ i dx dy
                    (by rw [h4]; exact Or.inl rfl)
                  rw [h4] at elr eσ4; dsimp only at elr eσ4
                  have elr' := elr.symm; subst elr'
                  have eσ4' := eσ4.symm; subst eσ4'
                  have hres : translate_point σ (node b c ps ul ur ll lr) i dx dy =
                      (.not_in_tree, node b c ps ul ur ll lr, σ) := by
                    simp [translate_point, hc, hm, h1, h2, h3, h4]
                  rw [hres]
                  exact ⟨⟨hg.1, hg.2.1, hg.2.2.1, hg.2.2.2.1, hg.2.2.2.2⟩, le_refl _,
                    (by intro h; rcases h with h | h <;> cases h), (by intro h; cases h)⟩
              · -- result: not_in_tree
                obtain ⟨elr, eσ4⟩ := translate_fail_unchanged lr σ i dx dy
                  (by rw [h4]; exact Or.inr rfl)
                rw [h4] at elr eσ4; dsimp only at elr eσ4
                have elr' := elr.symm; subst elr'
                have eσ4' := eσ4.symm; subst eσ4'
                have hres : translate_point σ (node b c ps ul ur ll lr) i dx dy =
                    (.not_in_tree, node b c ps ul ur ll lr, σ) := by
                  simp [translate_point, hc, hm, h1, h2, h3, h4]
                rw [hres]
                exact ⟨⟨hg.1, hg.2.1, hg.2.2.1, hg.2.2.2.1, hg.2.2.2.2⟩, le_refl _,
                  (by intro h; rcases h with h | h <;> cases h), (by intro h; cases h)⟩
              · -- result: removed
                obtain ⟨hσ4, hilr⟩ := c4 (Or.inr rfl)
                subst hσ4
                have hexcl := (@nodup_node_excl b c ps ul ur ll lr i hnd).2.2.2.1 hilr
                have eer := e4 rfl
                have hmem : i ∈ get_all_points (node b c ps ul ur ll lr) := by
                  simp only [all_node, List.mem_append]
                  exact Or.inr hilr
                have geoT1 : geoOK (updStore σ i dx dy) (node b c ps ul ur ll lr') :=
                  ⟨fun j hj => (containsPt_upd_ne
                      (fun he => absurd hj (by rw [he]; exact hexcl.1))).2 (hg.1 j hj),
                    geoOK_upd_not_mem ul hg.2.1 hexcl.2.1,
                    geoOK_upd_not_mem ur hg.2.2.1 hexcl.2.2.1,
                    geoOK_upd_not_mem ll hg.2.2.2.1 hexcl.2.2.2, g4⟩
                have msT1er : (↑(get_all_points (node b c ps ul ur ll lr')) : Multiset Nat) ≤
                    (↑(get_all_points (node b c ps ul ur ll lr)) : Multiset Nat).erase i := by
                  simp only [all_node, ← Multiset.coe_add]
                  rw [ms_erase_at5 _ _ _ _ (Multiset.mem_coe.2 hilr)]
                  exact add_le_add (le_refl _) eer
                by_cases hre : containsPt b (updStore σ i dx dy) i
                · have hres : translate_point σ (node b c ps ul ur ll lr) i dx dy =
                      (.translated,
                        (insert (updStore σ i dx dy) (node b c ps ul ur ll lr') i).1,
                        updStore σ i dx dy) := by
                    simp [translate_point, hc, hm, h1, h2, h3, h4, hre]
                  rw [hres]
                  have hins := insert_master (node b c ps ul ur ll lr')
                    (updStore σ i dx dy) i geoT1
                  refine ⟨hins.1, ?_, fun _ => ⟨rfl, hmem⟩, (by intro h; cases h)⟩
                  refine hins.2.trans ?_
                  refine le_trans (Multiset.cons_le_cons i msT1er) ?_
                  rw [Multiset.cons_erase (Multiset.mem_coe.2 hmem)]
                · have hres : translate_point σ (node b c ps ul ur ll lr) i dx dy =
                      (.removed, node b c ps ul ur ll lr', updStore σ i dx dy) := by
                    simp [translate_point, hc, hm, h1, h2, h3, h4, hre]
                  rw [hres]
                  exact ⟨geoT1, msT1er.trans (Multiset.erase_le _ _),
                    fun _ => ⟨rfl, hmem⟩, fun _ => msT1er⟩
            · -- result: not_in_tree
              obtain ⟨ell, eσ3⟩ := translate_fail_unchanged ll σ i dx dy
                (by rw [h3]; exact Or.inr rfl)
              rw [h3] at ell eσ3; dsimp only at ell eσ3
              have ell' := ell.symm; subst ell'
              have eσ3' := eσ3.symm; subst eσ3'
              have hres : translate_point σ (node b c ps ul ur ll lr) i dx dy =
                  (.not_in_tree, node b c ps ul ur ll lr, σ) := by
                simp [translate_point, hc, hm, h1, h2, h3]
              rw [hres]
              exact ⟨⟨hg.1, hg.2.1, hg.2.2.1, hg.2.2.2.1, hg.2.2.2.2⟩, le_refl _,
                (by intro h; rcases h with h | h <;> cases h), (by intro h; cases h)⟩
            · -- result: removed
              obtain ⟨hσ3, hill⟩ := c3 (Or.inr rfl)
              subst hσ3
              have hexcl := (@nodup_node_excl b c ps ul ur ll lr i hnd).2.2.1 hill
              have eer := e3 rfl
              have hmem : i ∈ get_all_points (node b c ps ul ur ll lr) := by
                simp only [all_node, List.mem_append]
                exact Or.inl (Or.inr hill)
              have geoT1 : geoOK (updStore σ i dx dy) (node b c ps ul ur ll' lr) :=
                ⟨fun j hj => (containsPt_upd_ne
                    (fun he => absurd hj (by rw [he]; exact hexcl.1))).2 (hg.1 j hj),
                  geoOK_upd_not_mem ul hg.2.1 hexcl.2.1,
                  geoOK_upd_not_mem ur hg.2.2.1 hexcl.2.2.1, g3,
                  geoOK_upd_not_mem lr hg.2.2.2.2 hexcl.2.2.2⟩
              have msT1er : (↑(get_all_points (node b c ps ul ur ll' lr)) : Multiset Nat) ≤
                  (↑(get_all_points (node b c ps ul ur ll lr)) : Multiset Nat).erase i := by
                simp only [all_node, ← Multiset.coe_add]
                rw [ms_erase_at4 _ _ _ _ (Multiset.mem_coe.2 hill)]
                exact add_le_add (add_le_add (le_refl _) eer) (le_refl _)
              by_cases hre : containsPt b (updStore σ i dx dy) i
              · have hres : translate_point σ (node b c ps ul ur ll lr) i dx dy =
                    (.translated,
                      (insert (updStore σ i dx dy) (node b c ps ul ur ll' lr) i).1,
                      updStore σ i dx dy) := by
                  simp [translate_point, hc, hm, h1, h2, h3, hre]
                rw [hres]
                have hins := insert_master (node b c ps ul ur ll' lr)
                  (updStore σ i dx dy) i geoT1
                refine ⟨hins.1, ?_, fun _ => ⟨rfl, hmem⟩, (by intro h; cases h)⟩
                refine hins.2.trans ?_
                refine le_trans (Multiset.cons_le_cons i msT1er) ?_
                rw [Multiset.cons_erase (Multiset.mem_coe.2 hmem)]
              · have hres : translate_point σ (node b c ps ul ur ll lr) i dx dy =
                    (.removed, node b c ps ul ur ll' lr, updStore σ i dx dy) := by
                  simp [translate_point, hc, hm, h1, h2, h3, hre]
                rw [hres]
                exact ⟨geoT1, msT1er.trans (Multiset.erase_le _ _),
                  fun _ => ⟨rfl, hmem⟩, fun _ => msT1er⟩
          · -- result: not_in_tree
            obtain ⟨eur, eσ2⟩ := translate_fail_unchanged ur σ i dx dy
              (by rw [h2]; exact Or.inr rfl)
            rw [h2] at eur eσ2; dsimp only at eur eσ2
            have eur' := eur.symm; subst eur'
            have eσ2' := eσ2.symm; subst eσ2'
            have hres : translate_point σ (node b c ps ul ur ll lr) i dx dy =
                (.not_in_tree, node b c ps ul ur ll lr, σ) := by
              simp [translate_point, hc, hm, h1, h2]
            rw [hres]
            exact ⟨⟨hg.1, hg.2.1, hg.2.2.1, hg.2.2.2.1, hg.2.2.2.2⟩, le_refl _,
              (by intro h; rcases h with h | h <;> cases h), (by intro h; cases h)⟩
          · -- result: removed
            obtain ⟨hσ2, hiur⟩ := c2 (Or.inr rfl)
            subst hσ2
            have hexcl := (@nodup_node_excl b c ps ul ur ll lr i hnd).2.1 hiur
            have eer := e2 rfl
            have hniur' : i ∉ get_all_points ur' :=
              not_mem_of_ms_le_erase hndsub.2.1 eer
            have hmem : i ∈ get_all_points (node b c ps ul ur ll lr) := by
              simp only [all_node, List.mem_append]
              exact Or.inl (Or.inl (Or.inr hiur))
            have geoT1 : geoOK (updStore σ i dx dy) (node b c ps ul ur' ll lr) :=
              ⟨fun j hj => (containsPt_upd_ne
                  (fun he => absurd hj (by rw [he]; exact hexcl.1))).2 (hg.1 j hj),
                geoOK_upd_not_mem ul hg.2.1 hexcl.2.1, g2,
                geoOK_upd_not_mem ll hg.2.2.2.1 hexcl.2.2.1,
                geoOK_upd_not_mem lr hg.2.2.2.2 hexcl.2.2.2⟩
            have msT1er : (↑(get_all_points (node b c ps ul ur' ll lr)) : Multiset Nat) ≤
                (↑(get_all_points (node b c ps ul ur ll lr)) : Multiset Nat).erase i := by
              simp only [all_node, ← Multiset.coe_add]
              rw [ms_erase_at3 _ _ _ _ (Multiset.mem_coe.2 hiur)]
              exact add_le_add (add_le_add (add_le_add (le_refl _) eer)
                (le_refl _)) (le_refl _)
            by_cases hre : containsPt b (updStore σ i dx dy) i
            · have hres : translate_point σ (node b c ps ul ur ll lr) i dx dy =
                  (.translated,
                    (insert (updStore σ i dx dy) (node b c ps ul ur' ll lr) i).1,
                    updStore σ i dx dy) := by
                simp [translate_point, hc, hm, h1, h2, hre]
              rw [hres]
              have hins := insert_master (node b c ps ul ur' ll lr)
                (updStore σ i dx dy) i geoT1
              refine ⟨hins.1, ?_, fun _ => ⟨rfl, hmem⟩, (by intro h; cases h)⟩
              refine hins.2.trans ?_
              refine le_trans (Multiset.cons_le_cons i msT1er) ?_
              rw [Multiset.cons_erase (Multiset.mem_coe.2 hmem)]
            · have hres : translate_point σ (node b c ps ul ur ll lr) i dx dy =
                  (.removed, node b c ps ul ur' ll lr, updStore σ i dx dy) := by
                simp [translate_point, hc, hm, h1, h2, hre]
              rw [hres]
              exact ⟨geoT1, msT1er.trans (Multiset.erase_le _ _),
                fun _ => ⟨rfl, hmem⟩, fun _ => msT1er⟩
        · -- result: not_in_tree
          obtain ⟨eul, eσ⟩ := translate_fail_unchanged ul σ i dx dy
            (by rw [h1]; exact Or.inr rfl)
          rw [h1] at eul eσ; dsimp only at eul eσ
          have eul' := eul.symm; subst eul'
          have eσ' := eσ.symm; subst eσ'
          have hres : translate_point σ (node b c ps ul ur ll lr) i dx dy =
              (.not_in_tree, node b c ps ul ur ll lr, σ) := by
            simp [translate_point, hc, hm, h1]
          rw [hres]
          exact ⟨⟨hg.1, hg.2.1, hg.2.2.1, hg.2.2.2.1, hg.2.2.2.2⟩, le_refl _,
            (by intro h; rcases h with h | h <;> cases h), (by intro h; cases h)⟩
        · -- result: removed
          obtain ⟨hσ1, hiul⟩ := c1 (Or.inr rfl)
          subst hσ1
          have hexcl := (@nodup_node_excl b c ps ul ur ll lr i hnd).1 hiul
          have eer := e1 rfl
          have hniul' : i ∉ get_all_points ul' :=
            not_mem_of_ms_le_erase hndsub.1 eer
          have hmem : i ∈ get_all_points (node b c ps ul ur ll lr) := by
            simp only [all_node, List.mem_append]
            exact Or.inl (Or.inl (Or.inl (Or.inr hiul)))
          have geoT1 : geoOK (updStore σ i dx dy) (node b c ps ul' ur ll lr) :=
            ⟨fun j hj => (containsPt_upd_ne
                (fun he => absurd hj (by rw [he]; exact hexcl.1))).2 (hg.1 j hj),
              g1, geoOK_upd_not_mem ur hg.2.2.1 hexcl.2.1,
              geoOK_upd_not_mem ll hg.2.2.2.1 hexcl.2.2.1,
              geoOK_upd_not_mem lr hg.2.2.2.2 hexcl.2.2.2⟩
          have msT1er : (↑(get_all_points (node b c ps ul' ur ll lr)) : Multiset Nat) ≤
              (↑(get_all_points (node b c ps ul ur ll lr)) : Multiset Nat).erase i := by
            simp only [all_node, ← Multiset.coe_add]
            rw [ms_erase_at2 _ _ _ _ (Multiset.mem_coe.2 hiul)]
            exact add_le_add (add_le_add (add_le_add (add_le_add (le_refl _) eer)
              (le_refl _)) (le_refl _)) (le_refl _)
          by_cases hre : containsPt b (updStore σ i dx dy) i
          · have hres : translate_point σ (node b c ps ul ur ll lr) i dx dy =
                (.translated,
                  (insert (updStore σ i dx dy) (node b c ps ul' ur ll lr) i).1,
                  updStore σ i dx dy) := by
              simp [translate_point, hc, hm, h1, hre]
            rw [hres]
            have hins := insert_master (node b c ps ul' ur ll lr)
              (updStore σ i dx dy) i geoT1
            refine ⟨hins.1, ?_, fun _ => ⟨rfl, hmem⟩, (by intro h; cases h)⟩
            refine hins.2.trans ?_
            have hcons : (i ::ₘ (↑(get_all_points (node b c ps ul' ur ll lr)) :
                Multiset Nat)) ≤ ↑(get_all_points (node b c ps ul ur ll lr)) := by
              refine le_trans (Multiset.cons_le_cons i msT1er) ?_
              rw [Multiset.cons_erase (Multiset.mem_coe.2 hmem)]
            exact hcons
          · have hres : translate_point σ (node b c ps ul ur ll lr) i dx dy =
                (.removed, node b c ps ul' ur ll lr, updStore σ i dx dy) := by
              simp [translate_point, hc, hm, h1, hre]
            rw [hres]
            exact ⟨geoT1, msT1er.trans (Multiset.erase_le _ _),
              fun _ => ⟨rfl, hmem⟩, fun _ => msT1er⟩
    · have hres : translate_point σ (node b c ps ul ur ll lr) i dx dy =
          (.out_of_bounds, node b c ps ul ur ll lr, σ) := by
        simp [translate_point, hc]
      rw [hres]
      exact ⟨⟨hg.1, hg.2.1, hg.2.2.1, hg.2.2.2.1, hg.2.2.2.2⟩, le_refl _,
        (by intro h; rcases h with h | h <;> cases h), (by intro h; cases h)⟩

theorem geoOK_clear (σ : Store) (t : PointQuadTree) : geoOK σ (clear t) := by
  cases t <;> exact fun j hj => absurd hj (List.not_mem_nil j)

@[simp] theorem all_clear (t : PointQuadTree) : get_all_points (clear t) = [] := by
  cases t <;> rfl

/-- Along duplicate-free histories, every state is geometrically sound and
stores each element at most once. -/
theorem ReachND_geo_nodup {t : PointQuadTree} {σ : Store} (h : ReachND t σ) :
    geoOK σ t ∧ (get_all_points t).Nodup := by
  induction h with
  | init b c σ h =>
    exact ⟨fun j hj => absurd hj (List.not_mem_nil j), List.nodup_nil⟩
  | ins i hni h ih =>
    have hms := (insert_master _ _ i ih.1).2
    refine ⟨(insert_master _ _ i ih.1).1, ?_⟩
    have h1 : (i ::ₘ (↑(get_all_points _) : Multiset Nat)).Nodup :=
      Multiset.nodup_cons.2 ⟨by simpa using hni, Multiset.coe_nodup.2 ih.2⟩
    exact Multiset.coe_nodup.1 (Multiset.nodup_of_le hms h1)
  | rem i h ih =>
    have hInv := ReachND_Inv h
    exact ⟨(remove_master _ _ i ih.1 hInv.2.1).1,
      Multiset.coe_nodup.1 (Multiset.nodup_of_le
        (remove_ms_le _ i ih.1 hInv.2.1) (Multiset.coe_nodup.2 ih.2))⟩
  | mov i dx dy h ih =>
    have hInv := ReachND_Inv h
    have H := translate_master _ _ i dx dy ih.1 hInv.2.1 ih.2
    exact ⟨H.1, Multiset.coe_nodup.1
      (Multiset.nodup_of_le H.2.1 (Multiset.coe_nodup.2 ih.2))⟩
  | clr h ih =>
    exact ⟨geoOK_clear _ _, by simp⟩

/-- Under the geometric invariants, a range query returns exactly the stored
elements whose current coordinates the region contains, in storage order:
the boundary-intersection pruning never cuts off a stored in-region element. -/
theorem query_eq_filter (t : PointQuadTree) :
    ∀ (σ : Store) (R : AABB), geoOK σ t → tiled t →
      query_points_in_region σ t R =
        (get_all_points t).filter (fun j => decide (containsPt R σ j)) := by
  induction t with
  | leaf b c ps =>
    intro σ R hg htl
    by_cases hI : b.intersects R
    · simp [query_points_in_region, hI]
    · simp only [query_points_in_region, hI, not_false_eq_true, if_true, all_leaf]
      refine (List.filter_eq_nil_iff.2 ?_).symm
      intro a ha
      simp only [decide_eq_true_eq]
      intro hra
      exact hI (AABB.intersects_of_contains_both (hg a ha) hra)
  | node b c ps ul ur ll lr ihul ihur ihll ihlr =>
    intro σ R hg htl
    obtain ⟨hbul, hcul, hbur, hcur, hbll, hcll, hblr, hclr, htul, htur, htll, htlr⟩ := htl
    by_cases hI : b.intersects R
    · simp only [query_points_in_region, hI, not_true_eq_false, if_false, all_node,
        List.filter_append]
      rw [ihul σ R hg.2.1 htul, ihur σ R hg.2.2.1 htur, ihll σ R hg.2.2.2.1 htll,
        ihlr σ R hg.2.2.2.2 htlr]
    · simp only [query_points_in_region, hI, not_false_eq_true, if_true]
      refine (List.filter_eq_nil_iff.2 ?_).symm
      intro a ha
      simp only [decide_eq_true_eq]
      intro hra
      exact hI (AABB.intersects_of_contains_both
        (geo_all (node b c ps ul ur ll lr)
          ⟨hbul, hcul, hbur, hcur, hbll, hcll, hblr, hclr, htul, htur, htll, htlr⟩
          hg a ha) hra)

/-! ### Further characterisations of `insert` -/

/-- The resident list of the node `insert` is called on: the element is
appended exactly when the boundary contains it and there is room, and is
left alone otherwise (full nodes delegate to the subtrees). -/
theorem points_insert (σ : Store) (t : PointQuadTree) (i : Nat) :
    points (insert σ t i).1 =
      if containsPt (boundary t) σ i ∧ (points t).length < capacity t
      then points t ++ [i] else points t := by
  cases t with
  | leaf b c ps =>
    by_cases hc : containsPt b σ i
    · by_cases hl : ps.length < c
      · simp [insert, hc, hl]
      · have hcond : ¬ (containsPt (boundary (leaf b c ps)) σ i ∧
            (points (leaf b c ps)).length < capacity (leaf b c ps)) := by
          simp [hl]
        rw [if_neg hcond]
        simp only [insert, hc, hl, not_true_eq_false, if_false, if_true]
        split_ifs <;> simp
    · simp [insert, hc]
  | node b c ps ul ur ll lr =>
    by_cases hc : containsPt b σ i
    · by_cases hl : ps.length < c
      · simp [insert, hc, hl]
      · rcases h1 : insert σ ul i with ⟨ul', r1⟩
        rcases r1 with _ | _ | _
        · simp [insert, hc, hl, h1]
        · rcases h2 : insert σ ur i with ⟨ur', r2⟩
          rcases r2 with _ | _ | _
          · simp [insert, hc, hl, h1, h2]
          · rcases h3 : insert σ ll i with ⟨ll', r3⟩
            rcases r3 with _ | _ | _
            · simp [insert, hc, hl, h1, h2, h3]
            · rcases h4 : insert σ lr i with ⟨lr', r4⟩
              rcases r4 with _ | _ | _ <;>
                simp [insert, hc, hl, h1, h2, h3, h4]
            · simp [insert, hc, hl, h1, h2, h3]
          · simp [insert, hc, hl, h1, h2]
        · simp [insert, hc, hl, h1]
    · simp [insert, hc]

/-- A node with room for a contained element reports a successful insert. -/
theorem insert_snd_of_room {σ : Store} {t : PointQuadTree} {i : Nat}
    (hc : containsPt (boundary t) σ i) (hl : (points t).length < capacity t) :
    (insert σ t i).2 = .inserted := by
  cases t with
  | leaf b c ps =>
    simp only [boundary_leaf] at hc
    simp only [points_leaf, capacity_leaf] at hl
    simp [insert, hc, hl]
  | node b c ps ul ur ll lr =>
    simp only [boundary_node] at hc
    simp only [points_node, capacity_node] at hl
    simp [insert, hc, hl]

/-! ### Concrete histories

Four small reachable states exercising the removal paths.  Everything is
computed by the embedded operations themselves, so these states are exactly
what the Python code produces on the corresponding call sequences. -/

/-- Store for the deep-removal history: elements 1, 2, 3 at
(1,1), (2,2), (3,3). -/
def sDeep : Store := fun j =>
  if j = 1 then (1, 1) else if j = 2 then (2, 2) else if j = 3 then (3, 3)
  else (0, 0)

/-- Box `[-3,3] × [-3,3]`, capacity 1, after inserting elements 1, 2, 3. -/
def tDeep : PointQuadTree :=
  (insert sDeep (insert sDeep (insert sDeep (.leaf ⟨0, 0, 3, 3⟩ 1 []) 1).1 2).1 3).1

/-- `tDeep` after `translate_point` pushes element 3 out of bounds. -/
def tDeepMoved : PointQuadTree := (translate_point sDeep tDeep 3 1 1).2.1

def sDeepMoved : Store := (translate_point sDeep tDeep 3 1 1).2.2

/-- `tDeepMoved` after `remove` of element 1. -/
def tDeepRemoved : PointQuadTree := (remove sDeepMoved tDeepMoved 1).1

theorem Reach_tDeep : Reach tDeep sDeep :=
  Reach.ins 3 (Reach.ins 2 (Reach.ins 1 (Reach.init ⟨0, 0, 3, 3⟩ 1 sDeep (le_refl 1))))

theorem Reach_tDeepMoved : Reach tDeepMoved sDeepMoved :=
  Reach.mov 3 1 1 Reach_tDeep

theorem Reach_tDeepRemoved : Reach tDeepRemoved sDeepMoved :=
  Reach.rem 1 Reach_tDeepMoved

/-- Store for the dropped-element history: elements 0, 1, 2, 3 at
(-1,-1), (1,1), (2,2), (1/2,1/2). -/
def sQuart : Store := fun j =>
  if j = 0 then (-1, -1) else if j = 1 then (1, 1) else if j = 2 then (2, 2)
  else if j = 3 then (1/2, 1/2) else (0, 0)

/-- Box `[-7,7] × [-7,7]`, capacity 1, after inserting elements 0, 1, 2, 3. -/
def tQuart : PointQuadTree :=
  (insert sQuart (insert sQuart (insert sQuart (insert sQuart
    (.leaf ⟨0, 0, 7, 7⟩ 1 []) 0).1 1).1 2).1 3).1

/-- `tQuart` after `translate_point` pushes element 3 out of bounds. -/
def tQuartMoved : PointQuadTree :=
  (translate_point sQuart tQuart 3 (-10) (-10)).2.1

def sQuartMoved : Store := (translate_point sQuart tQuart 3 (-10) (-10)).2.2

theorem Reach_tQuartMoved : Reach tQuartMoved sQuartMoved :=
  Reach.mov 3 (-10) (-10) (Reach.ins 3 (Reach.ins 2 (Reach.ins 1 (Reach.ins 0
    (Reach.init ⟨0, 0, 7, 7⟩ 1 sQuart (le_refl 1))))))

/-- Store for the seam history: elements 0, 1 at (-1,-1), (1,1). -/
def sSeam : Store := fun j =>
  if j = 0 then (-1, -1) else if j = 1 then (1, 1) else (0, 0)

/-- Box `[-2,2] × [-2,2]`, capacity 1, after inserting elements 0 and 1
(the tree subdivides; 1 resides in the upper-right subtree). -/
def tSeam : PointQuadTree :=
  (insert sSeam (insert sSeam (.leaf ⟨0, 0, 2, 2⟩ 1 []) 0).1 1).1

/-- `tSeam` after translating element 1 by (-1, 0): it now sits at (0, 1),
on the closed seam between the upper-left and upper-right quadrants, still
resident in the upper-right subtree. -/
def tSeamMoved : PointQuadTree := (translate_point sSeam tSeam 1 (-1) 0).2.1

def sSeamMoved : Store := (translate_point sSeam tSeam 1 (-1) 0).2.2

theorem Reach_tSeamMoved : Reach tSeamMoved sSeamMoved :=
  Reach.mov 1 (-1) 0 (Reach.ins 1 (Reach.ins 0
    (Reach.init ⟨0, 0, 2, 2⟩ 1 sSeam (le_refl 1))))

/-- Store for the aliasing history: element 1 at (1,1). -/
def sAlias : Store := fun j => if j = 1 then (1, 1) else (0, 0)

/-- Box `[-2,2] × [-2,2]`, capacity 1, with the same element 1 inserted
twice — the Python tree then references one `Point` object from two nodes. -/
def tAlias : PointQuadTree :=
  (insert sAlias (insert sAlias (.leaf ⟨0, 0, 2, 2⟩ 1 []) 1).1 1).1

/-- `tAlias` after translating element 1 by (10, 10): one reference is
removed, the other survives with the mutated coordinates (11, 11). -/
def tAliasMoved : PointQuadTree := (translate_point sAlias tAlias 1 10 10).2.1

def sAliasMoved : Store := (translate_point sAlias tAlias 1 10 10).2.2

theorem Reach_tAliasMoved : Reach tAliasMoved sAliasMoved :=
  Reach.mov 1 10 10 (Reach.ins 1 (Reach.ins 1
    (Reach.init ⟨0, 0, 2, 2⟩ 1 sAlias (le_refl 1))))

/-- A leaf with no resident points: the shape `_remove_empty_subtrees` is
meant to discard. -/
def isEmptyLeaf : PointQuadTree → Bool
  | .leaf _ _ ps => ps.isEmpty
  | .node _ _ _ _ _ _ _ => false

theorem isEmptyLeaf_iff (t : PointQuadTree) :
    isEmptyLeaf t = true ↔ points t = [] ∧ has_subdivided t = false := by
  cases t <;> simp [isEmptyLeaf, has_subdivided]

/-- Does some node of the tree have four children that are all empty
leaves?  The pruning is meant to keep this `false` after every removal. -/
def hasEmptyQuad : PointQuadTree → Bool
  | .leaf _ _ _ => false
  | .node _ _ _ ul ur ll lr =>
    (isEmptyLeaf ul && isEmptyLeaf ur && isEmptyLeaf ll && isEmptyLeaf lr) ||
      hasEmptyQuad ul || hasEmptyQuad ur || hasEmptyQuad ll || hasEmptyQuad lr

/-! ### The claims -/

/-- C1 (corrected): for trees reachable by histories that never insert an
element that is already stored, `query_points_in_region` returns exactly
the stored elements whose current coordinates the region contains, in
storage order — the boundary-intersection pruning misses nothing.  (The
original claim, over arbitrary histories, fails under aliasing; see the
counterexample.) -/
theorem C1_query_exact_of_no_alias {t : PointQuadTree} {σ : Store}
    (h : ReachND t σ) (R : AABB) :
    query_points_in_region σ t R =
      (get_all_points t).filter (fun j => decide (containsPt R σ j)) :=
  query_eq_filter t σ R (ReachND_geo_nodup h).1 (ReachND_Inv h).2.1

theorem C1_witness :
    query_points_in_region sSeam tSeam (AABB.mk 0 0 2 2) =
      (get_all_points tSeam).filter
        (fun j => decide (containsPt (AABB.mk 0 0 2 2) sSeam j)) :=
  C1_query_exact_of_no_alias
    (ReachND.ins 1 (by with_unfolding_all decide) (ReachND.ins 0 (by with_unfolding_all decide)
      (ReachND.init ⟨0, 0, 2, 2⟩ 1 sSeam (le_refl 1)))) (AABB.mk 0 0 2 2)

/-- C1 counterexample: a state reachable by insert/translate alone (the
same element inserted twice, then translated out of bounds) in which
element 1 is stored in the tree and the region contains its coordinates,
yet the query returns nothing — the pruning cuts off the stored element. -/
theorem C1_counterexample :
    Reach tAliasMoved sAliasMoved ∧ 1 ∈ get_all_points tAliasMoved ∧
      containsPt (AABB.mk 11 11 1 1) sAliasMoved 1 ∧
      query_points_in_region sAliasMoved tAliasMoved (AABB.mk 11 11 1 1) = [] :=
  ⟨Reach_tAliasMoved, by with_unfolding_all decide, by with_unfolding_all decide, by with_unfolding_all decide⟩

/-- C2 (code bug): on a reachable state in which element 1 is stored,
`translate_point` answers `not_in_tree` — while `remove` on the very same
state finds the element.  The eager `not_in_tree` propagation stops at the
first subtree whose boundary contains the element's coordinates, which on a
quadrant seam need not be the subtree the element resides in. -/
theorem C2_translate_misses_stored_element :
    Reach tSeamMoved sSeamMoved ∧ 1 ∈ get_all_points tSeamMoved ∧
      (translate_point sSeamMoved tSeamMoved 1 1 0).1 = TRes.not_in_tree ∧
      (remove sSeamMoved tSeamMoved 1).2 = true :=
  ⟨Reach_tSeamMoved, by with_unfolding_all decide, by with_unfolding_all decide, by with_unfolding_all decide⟩

/-- C3 (confirmed): every reachable tree keeps every node's resident point
count at most that node's capacity. -/
theorem C3_capacity_bound {t : PointQuadTree} {σ : Store} (h : Reach t σ) :
    lenOK t :=
  (Reach_Inv h).2.2

theorem C3_witness : lenOK tDeepRemoved :=
  C3_capacity_bound Reach_tDeepRemoved

/-- C4 (code bug): a reachable state produced by a successful `remove` in
which the root has children and a descendant holds a resident point, yet
the root's own resident count (0) is below its capacity (1): the bubble-up
refill only pops points from leaf descendants and cannot reach a point
resident in an interior node, so the packing invariant fails. -/
theorem C4_packing_invariant_fails :
    Reach tDeepRemoved sDeepMoved ∧ (remove sDeepMoved tDeepMoved 1).2 = true ∧
      has_subdivided tDeepRemoved = true ∧ points tDeepRemoved = [] ∧
      capacity tDeepRemoved = 1 ∧ 2 ∈ subtree_points tDeepRemoved :=
  ⟨Reach_tDeepRemoved, by with_unfolding_all decide, by with_unfolding_all decide, by with_unfolding_all decide, by with_unfolding_all decide, by with_unfolding_all decide⟩

/-- C5 (code bug): a `translate_point` call on a reachable state that
removes a point (`removed` result) leaves a node whose four children are
all empty leaves: the `removed` propagation never prunes the nodes it
unwinds through, so the supposedly always-discarded empty structure
persists. -/
theorem C5_empty_children_persist :
    Reach tDeep sDeep ∧ (translate_point sDeep tDeep 3 1 1).1 = TRes.removed ∧
      hasEmptyQuad (translate_point sDeep tDeep 3 1 1).2.1 = true :=
  ⟨Reach_tDeep, by with_unfolding_all decide, by with_unfolding_all decide⟩

/-- C6 (confirmed): on every reachable tree, `insert` never reaches the
`assert False` branch — the four quadrants jointly cover the parent
boundary (closed edges overlapping), so when the boundary contains the
point some child accepts it. -/
theorem C6_no_assert_failure {t : PointQuadTree} {σ : Store} (h : Reach t σ)
    (i : Nat) : (insert σ t i).2 ≠ InsRes.assertFailed := by
  have hInv := Reach_Inv h
  rw [insert_snd_char t σ i hInv.1 hInv.2.1]
  split_ifs <;> simp

theorem C6_witness : (insert sDeep tDeep 9).2 ≠ InsRes.assertFailed :=
  C6_no_assert_failure Reach_tDeep 9

/-- C7 (corrected): `insert` appends the element to the node's own resident
list and reports success exactly when the node's boundary contains it and
the resident count is strictly below capacity — whether or not the node has
subdivided.  (The original claim required the node to be a leaf; an
under-full interior node also appends locally, see the counterexample.) -/
theorem C7_insert_append_iff (σ : Store) (t : PointQuadTree) (i : Nat) :
    (points (insert σ t i).1 = points t ++ [i] ∧
        (insert σ t i).2 = InsRes.inserted) ↔
      (containsPt (boundary t) σ i ∧ (points t).length < capacity t) := by
  constructor
  · intro h
    by_contra hcon
    have hp := points_insert σ t i
    rw [if_neg hcon] at hp
    rw [hp] at h
    have := h.1
    simp at this
  · rintro ⟨hc, hl⟩
    refine ⟨?_, insert_snd_of_room hc hl⟩
    rw [points_insert σ t i, if_pos ⟨hc, hl⟩]

/-- C7 counterexample: a reachable under-full interior node. `insert`
appends the new element 9 to its own resident list and returns success even
though the node has subdivided — contradicting "returns true exactly when
the node is a leaf with fewer than capacity resident points". -/
theorem C7_counterexample :
    Reach tDeepRemoved sDeepMoved ∧ has_subdivided tDeepRemoved = true ∧
      containsPt (boundary tDeepRemoved) sDeepMoved 9 ∧
      points (insert sDeepMoved tDeepRemoved 9).1 = points tDeepRemoved ++ [9] ∧
      (insert sDeepMoved tDeepRemoved 9).2 = InsRes.inserted :=
  ⟨Reach_tDeepRemoved, by with_unfolding_all decide, by with_unfolding_all decide, by with_unfolding_all decide, by with_unfolding_all decide⟩

/-- C8 (confirmed): failed operations change nothing.  A rejected `insert`
and a false `remove` return the tree unchanged (neither ever touches the
store), and a `translate_point` answering `out_of_bounds` or `not_in_tree`
returns both the tree and the store unchanged. -/
theorem C8_failed_ops_leave_state_unchanged (t : PointQuadTree) (σ : Store)
    (i : Nat) (dx dy : ℚ) :
    ((insert σ t i).2 = InsRes.rejected → (insert σ t i).1 = t) ∧
    ((remove σ t i).2 = false → (remove σ t i).1 = t) ∧
    (((translate_point σ t i dx dy).1 = TRes.out_of_bounds ∨
        (translate_point σ t i dx dy).1 = TRes.not_in_tree) →
      (translate_point σ t i dx dy).2.1 = t ∧
        (translate_point σ t i dx dy).2.2 = σ) :=
  ⟨fun h => (insert_rejected h).1, remove_false_unchanged t σ i,
    translate_fail_unchanged t σ i dx dy⟩

/-- C9 (code bug): a successful `remove` of element 1 on a reachable state
silently drops the unrelated stored element 2: the pruning only inspects the
immediate children's resident lists, and discards a subtree whose deeper
interior node still holds a point. -/
theorem C9_remove_drops_unrelated_element :
    Reach tQuartMoved sQuartMoved ∧ 2 ∈ get_all_points tQuartMoved ∧
      (remove sQuartMoved tQuartMoved 1).2 = true ∧
      2 ∉ get_all_points (remove sQuartMoved tQuartMoved 1).1 :=
  ⟨Reach_tQuartMoved, by with_unfolding_all decide, by with_unfolding_all decide, by with_unfolding_all decide⟩

/-- C10 (corrected): for trees reachable by histories that never insert an
element that is already stored, querying with the tree's own boundary
returns exactly `get_all_points`, in the same order.  (Over arbitrary
histories the equality fails under aliasing; see the counterexample.) -/
theorem C10_all_points_eq_boundary_query {t : PointQuadTree} {σ : Store}
    (h : ReachND t σ) :
    query_points_in_region σ t (boundary t) = get_all_points t := by
  rw [query_eq_filter t σ (boundary t) (ReachND_geo_nodup h).1
    (ReachND_Inv h).2.1]
  refine List.filter_eq_self.2 ?_
  intro j hj
  simp only [decide_eq_true_eq]
  exact geo_all t (ReachND_Inv h).2.1 (ReachND_geo_nodup h).1 j hj

theorem C10_witness :
    query_points_in_region sSeam tSeam (boundary tSeam) = get_all_points tSeam :=
  C10_all_points_eq_boundary_query
    (ReachND.ins 1 (by with_unfolding_all decide) (ReachND.ins 0 (by with_unfolding_all decide)
      (ReachND.init ⟨0, 0, 2, 2⟩ 1 sSeam (le_refl 1))))

/-- C10 counterexample: after inserting the same element twice and
translating it out of bounds, the surviving stored reference lies outside
the root boundary, so the boundary query returns `[]` while
`get_all_points` still lists the element. -/
theorem C10_counterexample :
    Reach tAliasMoved sAliasMoved ∧
      query_points_in_region sAliasMoved tAliasMoved (boundary tAliasMoved) ≠
        get_all_points tAliasMoved :=
  ⟨Reach_tAliasMoved, by with_unfolding_all decide⟩

end PointQuadTree

end PQT
